import Mathlib

/-!
# miniLZO demo: the chunked container of `testmini.c`

A shallow embedding of `src/testmini.c`: the flag macros (`sigbit`, `GetBit`,
`SetBit`, `ResetBit`), the encode loop (lines 129-163) and the decode loop
(lines 173-213) of `main`, with the return behind it (lines 215-219).

* Files are byte lists.  A read stream is the unread rest of the file plus the
  end-of-file indicator that `feof` tests.
* The codec (`lzo1x_1_compress`, `lzo1x_decompress`) is a parameter: it is
  declared in `minilzo.h`, which is outside `src/`.
* `lzo_uint` is declared in `minilzo.h` as well, so its size is a field of
  `Target`.  `int` is the 32-bit twos-complement type.
* The operating system never refuses a read or a write; what `fread` and
  `fwrite` return is then fixed by the C library contract (in particular
  `fwrite(p, 0, 1, fp)` returns 0).
-/

namespace MiniLZO

/-- One `unsigned char`. -/
abbrev Byte := Fin 256

/-- Line 57, `IN_LEN`: the size of the static array `in`. -/
def IN_LEN : Nat := 64 * 1024

/-! ## The target and the flag macros (lines 88-93) -/

/-- What the program takes from the C implementation it is built for. -/
structure Target where
  /-- Value of `sizeof(lzo_uint)`; the typedef lives in `minilzo.h`. -/
  sizeofUint : Nat
  /-- The `int` the target produces for `0x1 << k` when `k ≥ 32`.  C gives a
  shift by at least the width of the left operand no meaning, and targets
  differ (a constant folder leaves 0, an x86 shift instruction leaves
  `0x1 << (k % 32)`), so the value is supplied from outside. -/
  shlOver : Int

/-- Number of value bits of `lzo_uint`. -/
def uintBits (t : Target) : Nat := 8 * t.sizeofUint

/-- Reduction of an integer to the range of `int` (32-bit twos-complement). -/
def wrapInt (x : Int) : Int := (x + 2 ^ 31) % 2 ^ 32 - 2 ^ 31

/-- Conversion of an `int` operand to `lzo_uint` (usual arithmetic conversions:
reduction modulo `2 ^ uintBits`). -/
def toUint (t : Target) (x : Int) : Nat := (x % (2 : Int) ^ uintBits t).toNat

/-- Line 88: `#define sigbit(val) ((sizeof(val) << 3) -1)` with `val` of type
`lzo_uint` (`sizeof` is never 0, so the subtraction does not wrap). -/
def sigbit (t : Target) : Nat := (t.sizeofUint <<< 3) - 1

/-- The `int` expression `0x1 << k`.  For `k ≤ 31` it is the bit pattern
shifted inside a 32-bit word (for `k = 31` that is `INT_MIN`, as every twos-
complement compiler computes it); for `k ≥ 32` it is the target's `shlOver`. -/
def shlOne (t : Target) (k : Nat) : Int :=
  if k < 32 then wrapInt (2 ^ k) else wrapInt t.shlOver

/-- Line 91: `(unsigned char)(((val)>>(sigbit(val))) & 0x1)`. -/
def GetBit (t : Target) (val : Nat) : Nat :=
  ((val >>> sigbit t) &&& 1) % 256

/-- Line 92: `val = (lzo_uint) ((val) | (0x1 << (sigbit(val))))`; the result
is the new value of `val`. -/
def SetBit (t : Target) (val : Nat) : Nat :=
  (val ||| toUint t (shlOne t (sigbit t))) % 2 ^ uintBits t

/-- Line 93: `val = (lzo_uint) ((val) & ~(0x1 << (sigbit(val))))`; `~` acts
on the `int`, the conversion to `lzo_uint` follows. -/
def ResetBit (t : Target) (val : Nat) : Nat :=
  (val &&& toUint t (~~~ shlOne t (sigbit t))) % 2 ^ uintBits t

/-! ## stdio -/

/-- An input stream: the bytes not yet read and the end-of-file indicator. -/
structure InFile where
  rest : List Byte
  eof : Bool

/-- Result of `fread(buf, 1, n, f)`: the bytes delivered (their number is the
return value) and the stream afterwards.  A request for 0 bytes leaves the
stream alone; the indicator is raised when the request runs past the end. -/
def fread (f : InFile) (n : Nat) : List Byte × InFile :=
  if n = 0 then ([], f)
  else (f.rest.take n, ⟨f.rest.drop n, f.eof || decide (f.rest.length < n)⟩)

/-- Return value of `fwrite(p, size, 1, fp)` for the `size` bytes `data`:
1 when the item was written, 0 when `size` is 0. -/
def fwriteOne (data : List Byte) : Nat :=
  if data.length = 0 then 0 else 1

/-- The bytes of an `lzo_uint` in memory, lowest address first (little-endian
host), as `fwrite(&v, sizeof(v), 1, fp)` writes them. -/
def leBytes : Nat → Nat → List Byte
  | 0, _ => []
  | n + 1, v => Fin.ofNat (v % 256) :: leBytes n (v / 256)

/-- The unsigned value held by a run of bytes, lowest address first. -/
def leValue : List Byte → Nat
  | [] => 0
  | b :: bs => b.val + 256 * leValue bs

/-- Object representation of an `lzo_uint`. -/
def uintBytes (t : Target) (v : Nat) : List Byte := leBytes t.sizeofUint v

/-- The static array `in` after `data` has been read to its start: the bytes
behind the data keep their earlier contents. -/
def store (buf : Nat → Byte) (data : List Byte) : Nat → Byte :=
  fun i => if h : i < data.length then data.get ⟨i, h⟩ else buf i

/-- The first `n` bytes of the array. -/
def bufTake (buf : Nat → Byte) (n : Nat) : List Byte :=
  (List.range n).map buf

/-! ## Codec, frames, outcomes -/

/-- The two miniLZO entry points the program calls; `none` stands for a
return value other than `LZO_E_OK`. -/
structure Codec where
  /-- Call `lzo1x_1_compress(in, in_len, out, &out_len, wrkmem)` on the block. -/
  compress : List Byte → Option (List Byte)
  /-- Call `lzo1x_decompress(in, in_len, out, &out_len, NULL)` on the payload. -/
  decompress : List Byte → Option (List Byte)

/-- One header write followed by one payload write. -/
structure Frame where
  /-- The `lzo_uint` passed to the first `fwrite`. -/
  header : Nat
  /-- The bytes passed to the second `fwrite`. -/
  payload : List Byte
deriving DecidableEq

/-- The bytes a frame occupies in the container file. -/
def frameBytes (t : Target) (f : Frame) : List Byte :=
  uintBytes t f.header ++ f.payload

/-- Content of the container file after the listed writes. -/
def containerBytes (t : Target) (fs : List Frame) : List Byte :=
  (fs.map (frameBytes t)).flatten

/-- How a loop of `main` is left. -/
inductive Outcome where
  /-- The loop condition failed; `main` continues behind the loop. -/
  | done
  /-- Lines 184-185: `error!!!` was printed and `break` left the loop; `main`
  continues behind the loop. -/
  | broke
  /-- The process ended inside the loop with this exit status. -/
  | exit (code : Nat)
  /-- An access past the end of the array `in`. -/
  | overrun
deriving DecidableEq

/-- One pass through a loop body. -/
inductive Step (σ : Type) where
  | next (s : σ)
  | stop (o : Outcome) (s : σ)

/-! ## The encode loop (lines 128-163) -/

/-- What lines 133-161 do with one block. -/
inductive BlockResult where
  /-- Both `fwrite` calls returned 1. -/
  | wrote (f : Frame)
  /-- The header is written and the payload `fwrite` did not return 1:
  `errx(1, ...)`. -/
  | shortWrite (f : Frame)
  /-- The compressor did not return `LZO_E_OK`: `return 2`. -/
  | compressFailed

/-- Lines 133-161 for the block `blk = in[0 .. in_len)`.  The header `fwrite`
has `size = sizeof(out_len)`, never 0, so it returns 1. -/
def encodeBlock (t : Target) (c : Codec) (blk : List Byte) : BlockResult :=
  match c.compress blk with
  | none => .compressFailed
  | some out =>
    if out.length < blk.length then
      if fwriteOne out ≠ 1 then .shortWrite ⟨out.length, out⟩
      else .wrote ⟨out.length, out⟩
    else
      if fwriteOne blk ≠ 1 then .shortWrite ⟨SetBit t blk.length, blk⟩
      else .wrote ⟨SetBit t blk.length, blk⟩

/-- The frame written for a block, if any. -/
def BlockResult.frame? : BlockResult → Option Frame
  | .wrote f => some f
  | .shortWrite f => some f
  | .compressFailed => none

/-- State of the encode loop: input stream `fs`, array `in`, frames written
to `fp` so far, block counter `cnt` (a `uint32_t`). -/
structure EncState where
  fs : InFile
  inBuf : Nat → Byte
  fp : List Frame
  cnt : Nat

/-- One evaluation of the loop condition on line 129 and, when it holds, of
the body (lines 131-162).  The block handed to the compressor is
`in[0 .. in_len)`, the bytes just read.  Line 154 also applies `ResetBit` to
`out_len`, which is not read again before the compressor sets it anew. -/
def encodeIter (t : Target) (c : Codec) (s : EncState) : Step EncState :=
  if s.fs.eof then .stop .done s
  else
    let r := fread s.fs IN_LEN
    let s1 : EncState := { s with fs := r.2, inBuf := store s.inBuf r.1 }
    if r.1.length = 0 then .next s1
    else
      match encodeBlock t c r.1 with
      | .wrote f => .next { s1 with fp := s1.fp ++ [f], cnt := (s1.cnt + 1) % 2 ^ 32 }
      | .shortWrite f => .stop (.exit 1) { s1 with fp := s1.fp ++ [f] }
      | .compressFailed => .stop (.exit 2) s1

/-- The encode loop, run for at most `fuel` evaluations of its condition. -/
def encodeLoop (t : Target) (c : Codec) : Nat → EncState → Option (Outcome × EncState)
  | 0, _ => none
  | fuel + 1, s =>
    match encodeIter t c s with
    | .next s1 => encodeLoop t c fuel s1
    | .stop o s1 => some (o, s1)

/-- State on entry to the encode loop: `infile` just opened, nothing written. -/
def encodeStart (infile : List Byte) (buf : Nat → Byte) : EncState :=
  ⟨⟨infile, false⟩, buf, [], 0⟩

/-- The encode pass on the file `infile`, with `buf` the contents of `in`. -/
def encodePass (t : Target) (c : Codec) (infile : List Byte) (buf : Nat → Byte) :
    Option (Outcome × EncState) :=
  encodeLoop t c (infile.length + 2) (encodeStart infile buf)

/-! ## The decode loop (lines 172-213) -/

/-- Lines 175-180: the flag `cflag` and the length `new_len` taken from the
word that was read. -/
def decodeHeader (t : Target) (word : Nat) : Nat × Nat :=
  (GetBit t word, if GetBit t word ≠ 0 then ResetBit t word else word)

/-- State of the decode loop: container stream `fs`, array `in`, the variable
`new_len`, bytes written to `de_test` so far, block counter `cnt`. -/
structure DecState where
  fs : InFile
  inBuf : Nat → Byte
  new_len : Nat
  fp : List Byte
  cnt : Nat

/-- One evaluation of the loop condition on line 173 and, when it holds, of
the body (lines 175-212).  A header read of fewer than `sizeof(new_len)` bytes
replaces only the first bytes of `new_len`.  The compressed branch hands the
`in_len` bytes just read to the decompressor; the raw branch writes
`in[0 .. new_len)`, whatever the payload read delivered. -/
def decodeIter (t : Target) (c : Codec) (s : DecState) : Step DecState :=
  let h := fread s.fs t.sizeofUint
  if h.1.length = 0 then .stop .done { s with fs := h.2 }
  else
    let word := leValue (h.1 ++ (uintBytes t s.new_len).drop h.1.length)
    let hd := decodeHeader t word
    let p := fread h.2 hd.2
    let s1 : DecState := { s with fs := p.2, inBuf := store s.inBuf p.1, new_len := hd.2 }
    if IN_LEN < p.1.length then .stop .overrun s1
    else if p.1.length = 0 then .stop .broke s1
    else if hd.1 = 0 then
      match c.decompress p.1 with
      | some blk =>
        if fwriteOne blk ≠ 1 then .stop (.exit 1) s1
        else .next { s1 with fp := s1.fp ++ blk, cnt := (s1.cnt + 1) % 2 ^ 32 }
      | none => .stop (.exit 1) s1
    else if IN_LEN < hd.2 then .stop .overrun s1
    else if fwriteOne (bufTake s1.inBuf hd.2) ≠ 1 then .stop (.exit 1) s1
    else .next { s1 with fp := s1.fp ++ bufTake s1.inBuf hd.2, cnt := (s1.cnt + 1) % 2 ^ 32 }

/-- The decode loop, run for at most `fuel` evaluations of its condition. -/
def decodeLoop (t : Target) (c : Codec) : Nat → DecState → Option (Outcome × DecState)
  | 0, _ => none
  | fuel + 1, s =>
    match decodeIter t c s with
    | .next s1 => decodeLoop t c fuel s1
    | .stop o s1 => some (o, s1)

/-- State after `j` full passes through the body of the decode loop, if the
loop is not left before. -/
def decodeSteps (t : Target) (c : Codec) : Nat → DecState → Option DecState
  | 0, s => some s
  | j + 1, s =>
    match decodeIter t c s with
    | .next s1 => decodeSteps t c j s1
    | .stop _ _ => none

/-- State on entry to the decode loop: `container` just opened, `de_test`
empty, `buf` the contents of `in` and `nl` the value held by `new_len`. -/
def decodeStart (container : List Byte) (buf : Nat → Byte) (nl : Nat) : DecState :=
  ⟨⟨container, false⟩, buf, nl, [], 0⟩

/-- Lines 215-219: behind the decode loop, however it was left, both files are
closed and `main` returns 0. -/
def afterDecode : Outcome → Outcome
  | .done => .exit 0
  | .broke => .exit 0
  | o => o

/-- What a run of the decode pass shows. -/
structure DecodeRun where
  /-- How the decode loop was left. -/
  left : Outcome
  /-- How `main` ends. -/
  ending : Outcome
  /-- Content of `de_test`. -/
  deTest : List Byte
deriving DecidableEq

/-- The decode pass (lines 172-219) on the file `container`. -/
def decodePass (t : Target) (c : Codec) (container : List Byte) (buf : Nat → Byte)
    (nl : Nat) : Option DecodeRun :=
  (decodeLoop t c (container.length + 1) (decodeStart container buf nl)).map
    (fun r => ⟨r.1, afterDecode r.1, r.2.fp⟩)

/-! ## The chunking the specification describes -/

/-- The blocks the specification splits a byte sequence of `n` bytes into:
there are `ceil (n / IN_LEN)` of them and block `i` holds the bytes
`[IN_LEN * i, min (IN_LEN * (i + 1)) n)`. -/
def blocksOf (S : List Byte) : List (List Byte) :=
  (List.range ((S.length + (IN_LEN - 1)) / IN_LEN)).map
    (fun i => (S.drop (IN_LEN * i)).take IN_LEN)

/-! ## Targets and codecs used to instantiate the theorems -/

/-- A build in which `lzo_uint` has 32 bits. -/
def target32 : Target := ⟨4, 0⟩

/-- A build in which `lzo_uint` has 64 bits and the over-wide shift of the
flag macros folds to 0. -/
def target64 : Target := ⟨8, 0⟩

/-- The array `in` at program start: static storage, all zero. -/
def zeroBuf : Nat → Byte := fun _ => 0

/-- A small codec: the block `7 7 7 7` is packed into the single byte `7`,
every other block is stored behind a marker byte `1`. -/
def toyCodec : Codec where
  compress b := if b = [7, 7, 7, 7] then some [7] else some (1 :: b)
  decompress p :=
    if p = [7] then some [7, 7, 7, 7]
    else match p with
      | x :: b => if x = 1 then some b else none
      | [] => none

/-- A codec whose compressor reports success with an output of 0 bytes for
every block. -/
def emptyCodec : Codec := ⟨fun _ => some [], fun _ => none⟩

/-- A codec whose decompressor always reports an error; its compressor hands
the block back unchanged. -/
def failCodec : Codec := ⟨fun b => some b, fun _ => none⟩

/-! ## The program (lines 101-220) -/

/-- Exit status that goes with the way a pass ended; `none` where the run has
no defined behaviour. -/
def statusOf : Outcome → Option Nat
  | .done => some 0
  | .broke => some 0
  | .exit code => some code
  | .overrun => none

/-- What a run of `main` shows. -/
structure MainRun where
  /-- Exit status of the process; `none` when the run has no defined behaviour
  (a null or absent file name reaches `fopen`, or an access past `in`). -/
  status : Option Nat
  /-- Whether `lzo_init` was called (line 118). -/
  initCalled : Bool
  /-- Number of files opened (lines 124, 125, 169, 170). -/
  opened : Nat
  /-- Content of the file named by `argv[2]`. -/
  container : List Byte
  /-- Content of `de_test`. -/
  deTest : List Byte
deriving DecidableEq

/-- The function `main`.  `argvNull` says whether `argv == NULL`, `initOk`
whether `lzo_init` returns `LZO_E_OK`, `infile` is the content of the file
named by `argv[1]` and `nl` the value the uninitialised `new_len` holds.
Every `fopen` and `fclose` of a named file succeeds.  `argv[i]` is a file name
only for `i < argc`; `argv[argc]` is a null pointer. -/
def main (t : Target) (c : Codec) (argc : Nat) (argvNull initOk : Bool)
    (infile : List Byte) (nl : Nat) : MainRun :=
  if argc ≠ 3 ∧ argvNull = true then ⟨some 1, false, 0, [], []⟩
  else if initOk = false then ⟨some 3, true, 0, [], []⟩
  else if argvNull = true ∨ argc < 2 then ⟨none, true, 0, [], []⟩
  else if argc < 3 then ⟨none, true, 1, [], []⟩
  else
    match encodePass t c infile zeroBuf with
    | none => ⟨none, true, 2, [], []⟩
    | some (.done, e) =>
      match decodePass t c (containerBytes t e.fp) e.inBuf nl with
      | none => ⟨none, true, 4, containerBytes t e.fp, []⟩
      | some r => ⟨statusOf r.ending, true, 4, containerBytes t e.fp, r.deTest⟩
    | some (o, e) => ⟨statusOf o, true, 2, containerBytes t e.fp, []⟩

/-! ## Arithmetic of the flag, bytes and buffer -/

theorem sigbit_cases (t : Target) (hsz : t.sizeofUint = 4 ∨ t.sizeofUint = 8) :
    (uintBits t = 32 ∧ sigbit t = 31) ∨ (uintBits t = 64 ∧ sigbit t = 63) := by
  rcases hsz with h | h
  · left; simp [uintBits, sigbit, h]
  · right; simp [uintBits, sigbit, h]

theorem toUint_mask (t : Target) (hsz : t.sizeofUint = 4 ∨ t.sizeofUint = 8)
    (hmask : shlOne t (sigbit t) = -2 ^ 31) :
    toUint t (shlOne t (sigbit t)) = 2 ^ uintBits t - 2 ^ 31 := by
  rw [hmask]
  rcases sigbit_cases t hsz with ⟨h, _⟩ | ⟨h, _⟩ <;> simp [toUint, h]

theorem toUint_notMask (t : Target) (hsz : t.sizeofUint = 4 ∨ t.sizeofUint = 8)
    (hmask : shlOne t (sigbit t) = -2 ^ 31) :
    toUint t (~~~ shlOne t (sigbit t)) = 2 ^ 31 - 1 := by
  rw [hmask]
  rcases sigbit_cases t hsz with ⟨h, _⟩ | ⟨h, _⟩ <;> simp [toUint, h] <;> decide

theorem SetBit_flag (t : Target) (hsz : t.sizeofUint = 4 ∨ t.sizeofUint = 8)
    (hmask : shlOne t (sigbit t) = -2 ^ 31) (v : Nat) (hv : v < 2 ^ 31) :
    SetBit t v = 2 ^ uintBits t - 2 ^ 31 + v := by
  unfold SetBit
  rw [toUint_mask t hsz hmask, Nat.lor_comm]
  rcases sigbit_cases t hsz with ⟨h, _⟩ | ⟨h, _⟩
  · rw [h]
    have h1 := Nat.mul_add_lt_is_or hv 1
    rw [show (2 : Nat) ^ 32 - 2 ^ 31 = 2 ^ 31 * 1 by norm_num, ← h1]
    omega
  · rw [h]
    have h1 := Nat.mul_add_lt_is_or hv (2 ^ 33 - 1)
    rw [show (2 : Nat) ^ 64 - 2 ^ 31 = 2 ^ 31 * (2 ^ 33 - 1) by norm_num, ← h1]
    omega

theorem GetBit_low (t : Target) (hsz : t.sizeofUint = 4 ∨ t.sizeofUint = 8)
    (v : Nat) (hv : v < 2 ^ 31) : GetBit t v = 0 := by
  unfold GetBit
  rw [Nat.shiftRight_eq_div_pow, Nat.and_one_is_mod]
  rcases sigbit_cases t hsz with ⟨_, h⟩ | ⟨_, h⟩
  · rw [h]
    have : v / 2 ^ 31 = 0 := by omega
    rw [this]
  · rw [h]
    have : v / 2 ^ 63 = 0 := by omega
    rw [this]

theorem GetBit_SetBit (t : Target) (hsz : t.sizeofUint = 4 ∨ t.sizeofUint = 8)
    (hmask : shlOne t (sigbit t) = -2 ^ 31) (v : Nat) (hv : v < 2 ^ 31) :
    GetBit t (SetBit t v) = 1 := by
  rw [SetBit_flag t hsz hmask v hv]
  unfold GetBit
  rw [Nat.shiftRight_eq_div_pow, Nat.and_one_is_mod]
  rcases sigbit_cases t hsz with ⟨h1, h⟩ | ⟨h1, h⟩
  · rw [h, h1]
    have : (2 ^ 32 - 2 ^ 31 + v) / 2 ^ 31 = 1 := by omega
    rw [this]
  · rw [h, h1]
    have : (2 ^ 64 - 2 ^ 31 + v) / 2 ^ 63 = 1 := by omega
    rw [this]

theorem ResetBit_SetBit (t : Target) (hsz : t.sizeofUint = 4 ∨ t.sizeofUint = 8)
    (hmask : shlOne t (sigbit t) = -2 ^ 31) (v : Nat) (hv : v < 2 ^ 31) :
    ResetBit t (SetBit t v) = v := by
  rw [SetBit_flag t hsz hmask v hv]
  unfold ResetBit
  rw [toUint_notMask t hsz hmask, Nat.and_pow_two_sub_one_eq_mod]
  rcases sigbit_cases t hsz with ⟨h1, _⟩ | ⟨h1, _⟩ <;> rw [h1] <;> omega

theorem SetBit_lt (t : Target) (v : Nat) : SetBit t v < 2 ^ uintBits t :=
  Nat.mod_lt _ (Nat.two_pow_pos _)

theorem shlOne_of_four (t : Target) (ht : t.sizeofUint = 4) : shlOne t (sigbit t) = -2 ^ 31 := by
  simp [shlOne, sigbit, ht, wrapInt]

theorem leBytes_length (n v : Nat) : (leBytes n v).length = n := by
  induction n generalizing v with
  | zero => rfl
  | succ n ih => simp [leBytes, ih]

theorem leValue_leBytes (n v : Nat) (hv : v < 256 ^ n) : leValue (leBytes n v) = v := by
  induction n generalizing v with
  | zero => simp at hv; simp [leBytes, leValue, hv]
  | succ n ih =>
    have h1 : v / 256 < 256 ^ n := by
      rw [Nat.div_lt_iff_lt_mul (by norm_num)]
      rw [pow_succ] at hv
      exact hv
    simp only [leBytes, leValue, ih _ h1]
    have : (Fin.ofNat (v % 256) : Fin 256).val = v % 256 := by
      simp [Fin.ofNat]
    rw [this]
    omega

theorem bufTake_store (buf : Nat → Byte) (data : List Byte) :
    bufTake (store buf data) data.length = data := by
  apply List.ext_getElem
  · simp [bufTake]
  · intro i h1 h2
    simp [bufTake, store, h2]

/-! ## One pass of the decode loop over a well-formed frame -/

theorem fread_fst (f : InFile) (n : Nat) : (fread f n).1 = f.rest.take n := by
  unfold fread
  split
  · next h => simp [h]
  · rfl

theorem fread_snd_rest (f : InFile) (n : Nat) : (fread f n).2.rest = f.rest.drop n := by
  unfold fread
  split
  · next h => simp [h]
  · rfl

theorem uintBytes_length (t : Target) (v : Nat) : (uintBytes t v).length = t.sizeofUint :=
  leBytes_length _ _

theorem leValue_uintBytes_of_lt (t : Target) (v : Nat) (hv : v < 2 ^ uintBits t) :
    leValue (uintBytes t v) = v := by
  unfold uintBytes
  apply leValue_leBytes
  rw [show (256 : Nat) = 2 ^ 8 by norm_num, ← pow_mul]
  exact hv

theorem two_pow_31_lt_uint (t : Target) (hsz : t.sizeofUint = 4 ∨ t.sizeofUint = 8) :
    2 ^ 31 < 2 ^ uintBits t := by
  rcases sigbit_cases t hsz with ⟨h, _⟩ | ⟨h, _⟩ <;> rw [h] <;> norm_num

/-- A full header followed by the payload it announces: what the header read
and the payload read of one pass deliver. -/
theorem decodeIter_reads (t : Target) (s : DecState) (w : Nat) (p tail : List Byte)
    (hs : s.fs.rest = uintBytes t w ++ (p ++ tail)) :
    (fread s.fs t.sizeofUint).1 = uintBytes t w ∧
    (fread s.fs t.sizeofUint).2.rest = p ++ tail ∧
    leValue ((fread s.fs t.sizeofUint).1 ++
      (uintBytes t s.new_len).drop (fread s.fs t.sizeofUint).1.length) = leValue (uintBytes t w) := by
  have h1 : (fread s.fs t.sizeofUint).1 = uintBytes t w := by
    rw [fread_fst, hs, List.take_left' (uintBytes_length t w)]
  refine ⟨h1, ?_, ?_⟩
  · rw [fread_snd_rest, hs, List.drop_left' (uintBytes_length t w)]
  · rw [h1, uintBytes_length, List.drop_of_length_le (by rw [uintBytes_length]), List.append_nil]

/-- One pass of the decode loop over a frame whose flag is clear. -/
theorem decodeIter_compressed (t : Target) (c : Codec)
    (hsz : t.sizeofUint = 4 ∨ t.sizeofUint = 8) (s : DecState) (p tail blk : List Byte)
    (hp0 : p ≠ []) (hp : p.length ≤ IN_LEN) (hd : c.decompress p = some blk) (hblk : blk ≠ [])
    (hs : s.fs.rest = uintBytes t p.length ++ (p ++ tail)) :
    ∃ s1, decodeIter t c s = .next s1 ∧ s1.fs.rest = tail ∧ s1.fp = s.fp ++ blk := by
  have hlt : p.length < 2 ^ 31 := by unfold IN_LEN at hp; omega
  have hw := two_pow_31_lt_uint t hsz
  obtain ⟨h1, h2, h3⟩ := decodeIter_reads t s p.length p tail hs
  rw [leValue_uintBytes_of_lt t _ (by omega)] at h3
  have hpl : 0 < p.length := List.length_pos.mpr hp0
  have hbl : 0 < blk.length := List.length_pos.mpr hblk
  have hg : GetBit t p.length = 0 := GetBit_low t hsz _ hlt
  have h4 : (fread (fread s.fs t.sizeofUint).2 p.length).1 = p := by
    rw [fread_fst, h2, List.take_left' rfl]
  have h5 : (fread (fread s.fs t.sizeofUint).2 p.length).2.rest = tail := by
    rw [fread_snd_rest, h2, List.drop_left' rfl]
  have key : decodeIter t c s = .next
      { fs := (fread (fread s.fs t.sizeofUint).2 p.length).2, inBuf := store s.inBuf p,
        new_len := p.length, fp := s.fp ++ blk, cnt := (s.cnt + 1) % 2 ^ 32 } := by
    have e1 : (fread s.fs t.sizeofUint).1.length ≠ 0 := by
      rw [h1, uintBytes_length]; omega
    have e2 : ¬ IN_LEN < p.length := by omega
    have e3 : p.length ≠ 0 := by omega
    have e4 : fwriteOne blk = 1 := by simp [fwriteOne, hblk]
    simp only [decodeIter, decodeHeader, h3, hg, ne_eq, not_true_eq_false, ↓reduceIte, h4, hd,
      e1, e2, e3, e4]
  exact ⟨_, key, h5, rfl⟩

/-- One pass of the decode loop over a frame whose flag is set. -/
theorem decodeIter_raw (t : Target) (c : Codec)
    (hsz : t.sizeofUint = 4 ∨ t.sizeofUint = 8) (hmask : shlOne t (sigbit t) = -2 ^ 31)
    (s : DecState) (p tail : List Byte)
    (hp0 : p ≠ []) (hp : p.length ≤ IN_LEN)
    (hs : s.fs.rest = uintBytes t (SetBit t p.length) ++ (p ++ tail)) :
    ∃ s1, decodeIter t c s = .next s1 ∧ s1.fs.rest = tail ∧ s1.fp = s.fp ++ p := by
  have hlt : p.length < 2 ^ 31 := by unfold IN_LEN at hp; omega
  obtain ⟨h1, h2, h3⟩ := decodeIter_reads t s (SetBit t p.length) p tail hs
  rw [leValue_uintBytes_of_lt t _ (SetBit_lt t _)] at h3
  have hpl : 0 < p.length := List.length_pos.mpr hp0
  have hg : GetBit t (SetBit t p.length) = 1 := GetBit_SetBit t hsz hmask _ hlt
  have hr : ResetBit t (SetBit t p.length) = p.length := ResetBit_SetBit t hsz hmask _ hlt
  have h4 : (fread (fread s.fs t.sizeofUint).2 p.length).1 = p := by
    rw [fread_fst, h2, List.take_left' rfl]
  have h5 : (fread (fread s.fs t.sizeofUint).2 p.length).2.rest = tail := by
    rw [fread_snd_rest, h2, List.drop_left' rfl]
  have key : decodeIter t c s = .next
      { fs := (fread (fread s.fs t.sizeofUint).2 p.length).2, inBuf := store s.inBuf p,
        new_len := p.length, fp := s.fp ++ p, cnt := (s.cnt + 1) % 2 ^ 32 } := by
    have e1 : (fread s.fs t.sizeofUint).1.length ≠ 0 := by
      rw [h1, uintBytes_length]; omega
    have e2 : ¬ IN_LEN < p.length := by omega
    have e3 : p.length ≠ 0 := by omega
    have e4 : fwriteOne p = 1 := by simp [fwriteOne, hp0]
    simp only [decodeIter, decodeHeader, h3, hg, hr, ne_eq, one_ne_zero, not_false_eq_true,
      not_true_eq_false, ↓reduceIte, h4, e1, e2, e3, e4, bufTake_store]
  exact ⟨_, key, h5, rfl⟩

/-! ## Chunking -/

theorem blocksOf_nil : blocksOf [] = [] := by
  simp [blocksOf, IN_LEN]

theorem blocksOf_of_ne_nil (S : List Byte) (hS : S ≠ []) :
    blocksOf S = S.take IN_LEN :: blocksOf (S.drop IN_LEN) := by
  have hpos : 0 < S.length := List.length_pos.mpr hS
  have hk : (S.length + (IN_LEN - 1)) / IN_LEN
      = ((S.drop IN_LEN).length + (IN_LEN - 1)) / IN_LEN + 1 := by
    rw [List.length_drop]
    unfold IN_LEN
    omega
  unfold blocksOf
  rw [hk, List.range_succ_eq_map, List.map_cons, List.map_map]
  congr 1
  apply List.map_congr_left
  intro i _
  simp only [Function.comp, List.drop_drop]
  congr 2
  rw [Nat.mul_succ]
  omega

theorem blocksOf_flatten (S : List Byte) : (blocksOf S).flatten = S := by
  generalize hn : S.length = n
  induction n using Nat.strong_induction_on generalizing S with
  | _ n ih =>
    by_cases hS : S = []
    · subst hS; simp [blocksOf_nil]
    · rw [blocksOf_of_ne_nil S hS, List.flatten_cons]
      have hpos : 0 < S.length := List.length_pos.mpr hS
      rw [ih (S.drop IN_LEN).length (by rw [List.length_drop]; unfold IN_LEN; omega) _ rfl]
      exact List.take_append_drop _ _

theorem mem_blocksOf (S b : List Byte) (hb : b ∈ blocksOf S) : b ≠ [] ∧ b.length ≤ IN_LEN := by
  unfold blocksOf at hb
  rw [List.mem_map] at hb
  obtain ⟨i, hi, rfl⟩ := hb
  rw [List.mem_range] at hi
  have h1 : IN_LEN * i < S.length := by
    unfold IN_LEN at *
    omega
  constructor
  · intro h
    have := congrArg List.length h
    simp at this
    unfold IN_LEN at *
    omega
  · simp

/-! ## The encode loop when every block is written -/

theorem fread_snd_eof (f : InFile) (n : Nat) (hn : n ≠ 0) :
    (fread f n).2.eof = (f.eof || decide (f.rest.length < n)) := by
  simp [fread, hn]

theorem encodeLoop_eof (t : Target) (c : Codec) (fuel : Nat) (s : EncState)
    (h : s.fs.eof = true) : encodeLoop t c (fuel + 1) s = some (.done, s) := by
  simp [encodeLoop, encodeIter, h]

/-- When every block gets both its writes, the encode loop ends behind the
last block, with one frame per block of the unread input, in order. -/
theorem encodeLoop_blocks (t : Target) (c : Codec)
    (hw : ∀ b : List Byte, b ≠ [] → b.length ≤ IN_LEN → ∃ f, encodeBlock t c b = .wrote f)
    (n : Nat) : ∀ (s : EncState) (fuel : Nat), s.fs.rest.length = n → s.fs.eof = false →
      n + 2 ≤ fuel →
      ∃ e, encodeLoop t c fuel s = some (.done, e) ∧
        e.fp.map BlockResult.wrote =
          s.fp.map BlockResult.wrote ++ (blocksOf s.fs.rest).map (encodeBlock t c) := by
  induction n using Nat.strong_induction_on with
  | _ n ih =>
    intro s fuel hn he hfuel
    obtain ⟨fuel, rfl⟩ : ∃ k, fuel = k + 1 := ⟨fuel - 1, by omega⟩
    have hIN : IN_LEN ≠ 0 := by decide
    by_cases hr : s.fs.rest = []
    · -- nothing left: the read delivers 0 bytes and raises the indicator
      have h1 : (fread s.fs IN_LEN).1.length = 0 := by rw [fread_fst, hr]; rfl
      have h2 : (fread s.fs IN_LEN).2.eof = true := by
        rw [fread_snd_eof _ _ hIN, hr]; simp [IN_LEN]
      obtain ⟨fuel, rfl⟩ : ∃ k, fuel = k + 1 := ⟨fuel - 1, by omega⟩
      refine ⟨{ s with fs := (fread s.fs IN_LEN).2, inBuf := store s.inBuf (fread s.fs IN_LEN).1 },
        ?_, ?_⟩
      · rw [encodeLoop]
        simp only [encodeIter, he, h1, Bool.false_eq_true, ↓reduceIte]
        exact encodeLoop_eof t c fuel _ h2
      · simp [hr, blocksOf_nil]
    · -- a block of at least one byte
      have hb0 : (fread s.fs IN_LEN).1 ≠ [] := by
        rw [fread_fst]
        intro h
        rcases List.take_eq_nil_iff.mp h with h | h
        · exact hIN h
        · exact hr h
      have hbl : (fread s.fs IN_LEN).1.length ≤ IN_LEN := by
        rw [fread_fst]; exact List.length_take_le _ _
      obtain ⟨f, hf⟩ := hw _ hb0 hbl
      have hne : (fread s.fs IN_LEN).1.length ≠ 0 := by
        intro h; exact hb0 (List.length_eq_zero.mp h)
      have hstep : encodeLoop t c (fuel + 1) s = encodeLoop t c fuel
          { fs := (fread s.fs IN_LEN).2, inBuf := store s.inBuf (fread s.fs IN_LEN).1,
            fp := s.fp ++ [f], cnt := (s.cnt + 1) % 2 ^ 32 } := by
        rw [encodeLoop]
        simp only [encodeIter, he, hne, hf, Bool.false_eq_true, ↓reduceIte]
      rw [hstep, blocksOf_of_ne_nil _ hr, List.map_cons, ← fread_fst, hf]
      by_cases hshort : s.fs.rest.length < IN_LEN
      · -- the last, short block: the indicator is up, the loop is left
        have h2 : (fread s.fs IN_LEN).2.eof = true := by
          rw [fread_snd_eof _ _ hIN]; simp [hshort]
        have h3 : s.fs.rest.drop IN_LEN = [] := List.drop_eq_nil_of_le (by omega)
        obtain ⟨fuel, rfl⟩ : ∃ k, fuel = k + 1 := ⟨fuel - 1, by omega⟩
        refine ⟨_, encodeLoop_eof t c fuel _ h2, ?_⟩
        simp [h3, blocksOf_nil]
      · have h2 : (fread s.fs IN_LEN).2.eof = false := by
          rw [fread_snd_eof _ _ hIN]; simp [he, hshort]
        have hlen : (fread s.fs IN_LEN).2.rest.length = n - IN_LEN := by
          rw [fread_snd_rest, List.length_drop, hn]
        have hpos : 0 < n := by
          rw [← hn]; exact List.length_pos.mpr hr
        obtain ⟨e, he1, he2⟩ := ih (n - IN_LEN) (by unfold IN_LEN; omega)
          { fs := (fread s.fs IN_LEN).2, inBuf := store s.inBuf (fread s.fs IN_LEN).1,
            fp := s.fp ++ [f], cnt := (s.cnt + 1) % 2 ^ 32 } fuel hlen h2 (by omega)
        refine ⟨e, he1, ?_⟩
        rw [he2]
        simp [fread_snd_rest]

/-! ## The decode loop over the frames of an encode pass -/

/-- The decode loop turns the frame written for a block back into the block. -/
theorem decodeIter_wrote (t : Target) (c : Codec)
    (hsz : t.sizeofUint = 4 ∨ t.sizeofUint = 8) (hmask : shlOne t (sigbit t) = -2 ^ 31)
    (b : List Byte) (f : Frame) (hb0 : b ≠ []) (hbl : b.length ≤ IN_LEN)
    (hdec : ∀ out, c.compress b = some out → c.decompress out = some b)
    (hf : encodeBlock t c b = .wrote f) (s : DecState) (tail : List Byte)
    (hs : s.fs.rest = frameBytes t f ++ tail) :
    ∃ s1, decodeIter t c s = .next s1 ∧ s1.fs.rest = tail ∧ s1.fp = s.fp ++ b := by
  unfold encodeBlock at hf
  cases hco : c.compress b with
  | none => rw [hco] at hf; cases hf
  | some out =>
    rw [hco] at hf
    simp only at hf
    have hlt : b.length < 2 ^ 31 := by unfold IN_LEN at hbl; omega
    by_cases hlen : out.length < b.length
    · rw [if_pos hlen] at hf
      by_cases hw : fwriteOne out ≠ 1
      · rw [if_pos hw] at hf; cases hf
      · rw [if_neg hw] at hf
        cases hf
        have hout : out ≠ [] := by
          intro h; apply hw; simp [fwriteOne, h]
        apply decodeIter_compressed t c hsz s out tail b hout (by omega) (hdec out hco) hb0
        rw [hs, frameBytes, List.append_assoc]
    · rw [if_neg hlen] at hf
      by_cases hw : fwriteOne b ≠ 1
      · rw [if_pos hw] at hf; cases hf
      · rw [if_neg hw] at hf
        cases hf
        apply decodeIter_raw t c hsz hmask s b tail hb0 hbl
        rw [hs, frameBytes, List.append_assoc]

theorem decodeLoop_frames (t : Target) (c : Codec)
    (hsz : t.sizeofUint = 4 ∨ t.sizeofUint = 8) (hmask : shlOne t (sigbit t) = -2 ^ 31)
    (blocks : List (List Byte)) :
    ∀ (frames : List Frame) (s : DecState) (fuel : Nat),
      frames.map BlockResult.wrote = blocks.map (encodeBlock t c) →
      (∀ b ∈ blocks, b ≠ [] ∧ b.length ≤ IN_LEN ∧
        ∀ out, c.compress b = some out → c.decompress out = some b) →
      s.fs.rest = containerBytes t frames → frames.length + 1 ≤ fuel →
      ∃ e, decodeLoop t c fuel s = some (.done, e) ∧ e.fp = s.fp ++ blocks.flatten := by
  induction blocks with
  | nil =>
    intro frames s fuel hmap _ hs hfuel
    obtain ⟨fuel, rfl⟩ : ∃ k, fuel = k + 1 := ⟨fuel - 1, by omega⟩
    have hfr : frames = [] := by simpa using hmap
    subst hfr
    have h1 : (fread s.fs t.sizeofUint).1.length = 0 := by
      rw [fread_fst, hs]; simp [containerBytes]
    refine ⟨{ s with fs := (fread s.fs t.sizeofUint).2 }, ?_, by simp⟩
    rw [decodeLoop]
    simp only [decodeIter, h1, ↓reduceIte]
  | cons b bs ih =>
    intro frames s fuel hmap hall hs hfuel
    cases frames with
    | nil => simp at hmap
    | cons f fs =>
      simp only [List.map_cons, List.cons.injEq] at hmap
      obtain ⟨hf, hrest⟩ := hmap
      obtain ⟨hb0, hbl, hdec⟩ := hall b (List.mem_cons_self _ _)
      obtain ⟨fuel, rfl⟩ : ∃ k, fuel = k + 1 := ⟨fuel - 1, by
        simp only [List.length_cons] at hfuel; omega⟩
      obtain ⟨s1, hs1, hs1r, hs1f⟩ := decodeIter_wrote t c hsz hmask b f hb0 hbl hdec hf.symm s
        (containerBytes t fs) (by rw [hs]; simp [containerBytes])
      obtain ⟨e, he1, he2⟩ := ih fs s1 fuel hrest
        (fun x hx => hall x (List.mem_cons_of_mem _ hx)) hs1r
        (by simp only [List.length_cons] at hfuel; omega)
      refine ⟨e, ?_, ?_⟩
      · rw [decodeLoop, hs1]
        exact he1
      · rw [he2, hs1f]; simp

theorem containerBytes_length (t : Target) (ht : t.sizeofUint ≠ 0) (frames : List Frame) :
    frames.length ≤ (containerBytes t frames).length := by
  induction frames with
  | nil => simp
  | cons f fs ih =>
    simp only [containerBytes, List.map_cons, List.flatten_cons, List.length_append,
      List.length_cons, frameBytes, uintBytes_length] at *
    omega

/-! ## Round trip -/

theorem toyCodec_ok (b : List Byte) (_hb : b ≠ []) (_hl : b.length ≤ IN_LEN) :
    ∃ out, toyCodec.compress b = some out ∧ out ≠ [] ∧ toyCodec.decompress out = some b := by
  by_cases h : b = [7, 7, 7, 7]
  · subst h
    exact ⟨[7], by decide, by decide, by decide⟩
  · refine ⟨1 :: b, by simp [toyCodec, h], by simp, ?_⟩
    have h1 : (1 : Byte) :: b ≠ [7] := by
      intro h2
      have := (List.cons.inj h2).1
      revert this
      decide
    simp [toyCodec, h1]

/-- A compressor that succeeds with a non-empty output gets both writes of the
frame through. -/
theorem encodeBlock_wrote (t : Target) (c : Codec) (b out : List Byte) (hb : b ≠ [])
    (hc : c.compress b = some out) (ho : out ≠ []) : ∃ f, encodeBlock t c b = .wrote f := by
  have h1 : fwriteOne out = 1 := by simp [fwriteOne, ho]
  have h2 : fwriteOne b = 1 := by simp [fwriteOne, hb]
  unfold encodeBlock
  rw [hc]
  by_cases hlen : out.length < b.length
  · exact ⟨⟨out.length, out⟩, by simp [hlen, h1]⟩
  · exact ⟨⟨SetBit t b.length, b⟩, by simp [hlen, h2]⟩

/-- When every block gets both its writes, the encode pass ends normally with
one frame per block of the input, in order. -/
theorem encodePass_blocks (t : Target) (c : Codec)
    (hw : ∀ b : List Byte, b ≠ [] → b.length ≤ IN_LEN → ∃ f, encodeBlock t c b = .wrote f)
    (S : List Byte) (buf : Nat → Byte) :
    ∃ e, encodePass t c S buf = some (.done, e) ∧
      e.fp.map BlockResult.wrote = (blocksOf S).map (encodeBlock t c) := by
  obtain ⟨e, he1, he2⟩ := encodeLoop_blocks t c hw S.length (encodeStart S buf)
    (S.length + 2) rfl rfl (le_refl _)
  have e1 : (encodeStart S buf).fp = [] := rfl
  have e2 : (encodeStart S buf).fs.rest = S := rfl
  rw [e1, e2, List.map_nil, List.nil_append] at he2
  exact ⟨e, he1, he2⟩

/-- Round trip where the flag works: on a target whose `lzo_uint` has 32 or 64
bits and on which the `int` expression `0x1 << sigbit(val)` of the flag macros
is `INT_MIN` (with 32 bits it always is), with a codec that compresses every
non-empty block of at most `IN_LEN` bytes into a non-empty payload (so every
write goes through) which its decompressor turns back into the block, the
encode pass on any input `S` ends normally and the decode pass on the
container it wrote ends with status 0 and writes exactly `S`. -/
theorem round_trip (t : Target) (c : Codec) (S : List Byte) (buf : Nat → Byte) (nl : Nat)
    (hsz : t.sizeofUint = 4 ∨ t.sizeofUint = 8) (hmask : shlOne t (sigbit t) = -2 ^ 31)
    (hc : ∀ b : List Byte, b ≠ [] → b.length ≤ IN_LEN →
      ∃ out, c.compress b = some out ∧ out ≠ [] ∧ c.decompress out = some b) :
    ∃ e, encodePass t c S buf = some (.done, e) ∧
      decodePass t c (containerBytes t e.fp) e.inBuf nl = some ⟨.done, .exit 0, S⟩ := by
  have hw : ∀ b : List Byte, b ≠ [] → b.length ≤ IN_LEN →
      ∃ f, encodeBlock t c b = .wrote f := by
    intro b hb hl
    obtain ⟨out, h1, h2, _⟩ := hc b hb hl
    exact encodeBlock_wrote t c b out hb h1 h2
  obtain ⟨e, he1, he2⟩ := encodePass_blocks t c hw S buf
  refine ⟨e, he1, ?_⟩
  have hall : ∀ b ∈ blocksOf S, b ≠ [] ∧ b.length ≤ IN_LEN ∧
      ∀ out, c.compress b = some out → c.decompress out = some b := by
    intro b hb
    obtain ⟨h0, hl⟩ := mem_blocksOf S b hb
    refine ⟨h0, hl, ?_⟩
    intro out hout
    obtain ⟨out1, h1, _, h3⟩ := hc b h0 hl
    rw [h1] at hout
    cases hout
    exact h3
  obtain ⟨d, hd1, hd2⟩ := decodeLoop_frames t c hsz hmask (blocksOf S) e.fp
    (decodeStart (containerBytes t e.fp) e.inBuf nl) ((containerBytes t e.fp).length + 1)
    he2 hall rfl (by
      have := containerBytes_length t (by omega) e.fp
      omega)
  unfold decodePass
  rw [hd1]
  simp only [Option.map_some', afterDecode, hd2, decodeStart, List.nil_append, blocksOf_flatten]

theorem round_trip_witness :
    (target32.sizeofUint = 4 ∨ target32.sizeofUint = 8) ∧
    shlOne target32 (sigbit target32) = -2 ^ 31 ∧
    (∀ b : List Byte, b ≠ [] → b.length ≤ IN_LEN →
      ∃ out, toyCodec.compress b = some out ∧ out ≠ [] ∧ toyCodec.decompress out = some b) ∧
    ∃ e, encodePass target32 toyCodec [7, 7, 7, 7] zeroBuf = some (.done, e) ∧
      decodePass target32 toyCodec (containerBytes target32 e.fp) e.inBuf 0
        = some ⟨.done, .exit 0, [7, 7, 7, 7]⟩ :=
  ⟨Or.inl rfl, by decide, toyCodec_ok,
    round_trip target32 toyCodec [7, 7, 7, 7] zeroBuf 0 (Or.inl rfl) (by decide) toyCodec_ok⟩

/-- C1 (round trip), evaluated where it fails: with a 64-bit `lzo_uint` and
the over-wide shift of the flag mask folding to 0, the program run on the
two-byte file `9 9` ends with exit status 1 and an empty `de_test`.  The codec
does not shrink the block and would restore it from its own output; the block
is stored raw under the header word 2, which carries no flag, so the decode
pass hands the raw bytes to the decompressor, which rejects them.  The same
happens to a file of five bytes that the codec does not shrink. -/
theorem round_trip_lost_lp64 :
    toyCodec.compress [9, 9] = some [1, 9, 9] ∧ toyCodec.decompress [1, 9, 9] = some [9, 9] ∧
    main target64 toyCodec 3 false true [9, 9] 0
      = ⟨some 1, true, 4, [2, 0, 0, 0, 0, 0, 0, 0, 9, 9], []⟩ ∧
    main target64 toyCodec 3 false true [7, 7, 7, 7, 9] 0
      = ⟨some 1, true, 4, [5, 0, 0, 0, 0, 0, 0, 0, 7, 7, 7, 7, 9], []⟩ := by
  refine ⟨?_, ?_, ?_, ?_⟩ <;> decide

/-! ## The encode pass under an arbitrary codec -/

theorem frames_cons_length (b : List Byte) (bs : List (List Byte)) (k : Nat)
    (hk : k ≤ bs.length) : k + 1 ≤ (b :: bs).length := by
  rw [List.length_cons]
  omega

theorem frames_cons (g : List Byte → Option Frame) (fp e : List Frame) (b : List Byte)
    (bs : List (List Byte)) (f : Frame) (k : Nat) (hf : g b = some f)
    (he : e.map some = (fp ++ [f]).map some ++ (bs.take k).map g) :
    e.map some = fp.map some ++ ((b :: bs).take (k + 1)).map g := by
  rw [he, List.take_succ_cons, List.map_cons, hf, List.map_append, List.map_cons, List.map_nil,
    List.append_assoc, List.singleton_append]

/-- Whatever the codec does, the encode loop is left, and the frames it has
written by then are those of the first `k` blocks of the unread input. -/
theorem encodeLoop_total (t : Target) (c : Codec) (n : Nat) :
    ∀ (s : EncState) (fuel : Nat), s.fs.rest.length = n → s.fs.eof = false → n + 2 ≤ fuel →
      ∃ o e, encodeLoop t c fuel s = some (o, e) ∧ ∃ k, k ≤ (blocksOf s.fs.rest).length ∧
        e.fp.map some = s.fp.map some ++
          ((blocksOf s.fs.rest).take k).map (fun b => (encodeBlock t c b).frame?) := by
  induction n using Nat.strong_induction_on with
  | _ n ih =>
    intro s fuel hn he hfuel
    obtain ⟨fuel, rfl⟩ : ∃ k, fuel = k + 1 := ⟨fuel - 1, by omega⟩
    obtain ⟨fuel, rfl⟩ : ∃ k, fuel = k + 1 := ⟨fuel - 1, by omega⟩
    have hIN : IN_LEN ≠ 0 := by decide
    by_cases hr : s.fs.rest = []
    · have h1 : (fread s.fs IN_LEN).1.length = 0 := by rw [fread_fst, hr]; rfl
      have h2 : (fread s.fs IN_LEN).2.eof = true := by
        rw [fread_snd_eof _ _ hIN, hr]; simp [IN_LEN]
      refine ⟨.done, ⟨(fread s.fs IN_LEN).2, store s.inBuf (fread s.fs IN_LEN).1, s.fp, s.cnt⟩,
        ?_, 0, Nat.zero_le _, by rw [List.take_zero, List.map_nil, List.append_nil]⟩
      rw [encodeLoop]
      simp only [encodeIter, he, h1, Bool.false_eq_true, ↓reduceIte]
      exact encodeLoop_eof t c fuel _ h2
    · have hb0 : (fread s.fs IN_LEN).1 ≠ [] := by
        rw [fread_fst]
        intro h
        rcases List.take_eq_nil_iff.mp h with h | h
        · exact hIN h
        · exact hr h
      have hne : (fread s.fs IN_LEN).1.length ≠ 0 := by
        intro h; exact hb0 (List.length_eq_zero.mp h)
      rw [blocksOf_of_ne_nil _ hr, ← fread_fst, ← fread_snd_rest s.fs IN_LEN]
      cases hf : encodeBlock t c (fread s.fs IN_LEN).1 with
      | compressFailed =>
        refine ⟨.exit 2, ⟨(fread s.fs IN_LEN).2, store s.inBuf (fread s.fs IN_LEN).1, s.fp,
          s.cnt⟩, ?_, 0, Nat.zero_le _, by rw [List.take_zero, List.map_nil, List.append_nil]⟩
        rw [encodeLoop]
        simp only [encodeIter, he, hne, hf, Bool.false_eq_true, ↓reduceIte]
      | shortWrite f =>
        refine ⟨.exit 1, ⟨(fread s.fs IN_LEN).2, store s.inBuf (fread s.fs IN_LEN).1,
          s.fp ++ [f], s.cnt⟩, ?_, 0 + 1, frames_cons_length _ _ 0 (Nat.zero_le _),
          frames_cons _ s.fp _ _ _ f 0 (by rw [hf]; rfl)
            (by rw [List.take_zero, List.map_nil, List.append_nil])⟩
        rw [encodeLoop]
        simp only [encodeIter, he, hne, hf, Bool.false_eq_true, ↓reduceIte]
      | wrote f =>
        have hstep : encodeLoop t c (fuel + 1 + 1) s = encodeLoop t c (fuel + 1)
            { fs := (fread s.fs IN_LEN).2, inBuf := store s.inBuf (fread s.fs IN_LEN).1,
              fp := s.fp ++ [f], cnt := (s.cnt + 1) % 2 ^ 32 } := by
          rw [encodeLoop]
          simp only [encodeIter, he, hne, hf, Bool.false_eq_true, ↓reduceIte]
        rw [hstep]
        by_cases hshort : s.fs.rest.length < IN_LEN
        · have h2 : (fread s.fs IN_LEN).2.eof = true := by
            rw [fread_snd_eof _ _ hIN]; simp [hshort]
          exact ⟨.done, _, encodeLoop_eof t c fuel _ h2, 0 + 1,
            frames_cons_length _ _ 0 (Nat.zero_le _),
            frames_cons _ s.fp _ _ _ f 0 (by rw [hf]; rfl)
              (by rw [List.take_zero, List.map_nil, List.append_nil])⟩
        · have h2 : (fread s.fs IN_LEN).2.eof = false := by
            rw [fread_snd_eof _ _ hIN]; simp [he, hshort]
          have hlen : (fread s.fs IN_LEN).2.rest.length = n - IN_LEN := by
            rw [fread_snd_rest, List.length_drop, hn]
          have hpos : 0 < n := by
            rw [← hn]; exact List.length_pos.mpr hr
          obtain ⟨o, e, he1, k, hk, he2⟩ := ih (n - IN_LEN) (by unfold IN_LEN; omega)
            { fs := (fread s.fs IN_LEN).2, inBuf := store s.inBuf (fread s.fs IN_LEN).1,
              fp := s.fp ++ [f], cnt := (s.cnt + 1) % 2 ^ 32 } (fuel + 1) hlen h2 (by omega)
          exact ⟨o, e, he1, k + 1, frames_cons_length _ _ k hk,
            frames_cons _ s.fp _ _ _ f k (by rw [hf]; rfl) he2⟩

/-- Every encode pass ends, and what it has written are the frames of the
first `k` blocks of its input. -/
theorem encodePass_total (t : Target) (c : Codec) (S : List Byte) (buf : Nat → Byte) :
    ∃ o e, encodePass t c S buf = some (o, e) ∧ ∃ k, k ≤ (blocksOf S).length ∧
      e.fp.map some = ((blocksOf S).take k).map (fun b => (encodeBlock t c b).frame?) := by
  obtain ⟨o, e, h1, k, hk, h2⟩ := encodeLoop_total t c S.length (encodeStart S buf)
    (S.length + 2) rfl rfl (le_refl _)
  exact ⟨o, e, h1, k, hk, by simpa [encodeStart] using h2⟩

/-- Every frame of an encode pass is the frame of a non-empty block of at most
`IN_LEN` bytes. -/
theorem encodePass_frame_origin (t : Target) (c : Codec) (S : List Byte) (buf : Nat → Byte)
    (o : Outcome) (e : EncState) (h : encodePass t c S buf = some (o, e))
    (f : Frame) (hf : f ∈ e.fp) :
    ∃ b, b ≠ [] ∧ b.length ≤ IN_LEN ∧ (encodeBlock t c b).frame? = some f := by
  obtain ⟨o1, e1, h1, k, _, h2⟩ := encodePass_total t c S buf
  rw [h] at h1
  cases h1
  have hm : some f ∈ e.fp.map some := List.mem_map_of_mem _ hf
  rw [h2, List.mem_map] at hm
  obtain ⟨b, hb, hbf⟩ := hm
  obtain ⟨h0, hl⟩ := mem_blocksOf S b (List.mem_of_mem_take hb)
  exact ⟨b, h0, hl, hbf⟩

/-! ## Frames of the encode pass -/

/-- The two shapes of the frame written for a block. -/
theorem encodeBlock_frame (t : Target) (c : Codec) (blk out : List Byte)
    (hc : c.compress blk = some out) :
    (out.length < blk.length ∧ (encodeBlock t c blk).frame? = some ⟨out.length, out⟩) ∨
    (blk.length ≤ out.length ∧
      (encodeBlock t c blk).frame? = some ⟨SetBit t blk.length, blk⟩) := by
  unfold encodeBlock
  rw [hc]
  by_cases hlen : out.length < blk.length
  · left
    refine ⟨hlen, ?_⟩
    simp only [hlen, ↓reduceIte]
    split <;> rfl
  · right
    refine ⟨by omega, ?_⟩
    simp only [hlen, ↓reduceIte]
    split <;> rfl

/-- The store-raw policy where the flag works: on a target whose `lzo_uint` has
32 or 64 bits and on which the `int` expression `0x1 << sigbit(val)` is `INT_MIN` (with 32 bits
it always is), for a block of `L ≤ IN_LEN` bytes for which the compressor
returns `C` bytes, a frame is written whose flag (as `GetBit` reads it from
the header) is 1 exactly when `C ≥ L` and 0 exactly when `C < L`; for `C < L`
the payload is the compressed bytes, for `C ≥ L` it is the block itself. -/
theorem store_raw_policy (t : Target) (c : Codec) (blk out : List Byte)
    (hsz : t.sizeofUint = 4 ∨ t.sizeofUint = 8) (hmask : shlOne t (sigbit t) = -2 ^ 31)
    (hl : blk.length ≤ IN_LEN)
    (hc : c.compress blk = some out) :
    ∃ f, (encodeBlock t c blk).frame? = some f ∧
      (GetBit t f.header = 1 ↔ blk.length ≤ out.length) ∧
      (GetBit t f.header = 0 ↔ out.length < blk.length) ∧
      (out.length < blk.length → f.payload = out) ∧
      (blk.length ≤ out.length → f.payload = blk) := by
  have hlt : blk.length < 2 ^ 31 := by unfold IN_LEN at hl; omega
  rcases encodeBlock_frame t c blk out hc with ⟨hlen, hf⟩ | ⟨hlen, hf⟩
  · have hg : GetBit t out.length = 0 := GetBit_low t hsz _ (by omega)
    refine ⟨_, hf, ?_, ?_, fun _ => rfl, fun h => absurd h (by omega)⟩
    · simp only [hg]
      constructor
      · intro h; cases h
      · intro h; omega
    · simp only [hg, true_iff]; exact hlen
  · have hg : GetBit t (SetBit t blk.length) = 1 := GetBit_SetBit t hsz hmask _ hlt
    refine ⟨_, hf, ?_, ?_, fun h => absurd h (by omega), fun _ => rfl⟩
    · simp only [hg, true_iff]; exact hlen
    · simp only [hg]
      constructor
      · intro h; cases h
      · intro h; omega

theorem store_raw_policy_witness :
    (target32.sizeofUint = 4 ∨ target32.sizeofUint = 8) ∧
    shlOne target32 (sigbit target32) = -2 ^ 31 ∧
    ([7, 7, 7, 7] : List Byte).length ≤ IN_LEN ∧
    toyCodec.compress [7, 7, 7, 7] = some [7] ∧
    ∃ f, (encodeBlock target32 toyCodec [7, 7, 7, 7]).frame? = some f ∧
      (GetBit target32 f.header = 1 ↔ ([7, 7, 7, 7] : List Byte).length ≤ ([7] : List Byte).length) ∧
      (GetBit target32 f.header = 0 ↔ ([7] : List Byte).length < ([7, 7, 7, 7] : List Byte).length) ∧
      (([7] : List Byte).length < ([7, 7, 7, 7] : List Byte).length → f.payload = [7]) ∧
      (([7, 7, 7, 7] : List Byte).length ≤ ([7] : List Byte).length → f.payload = [7, 7, 7, 7]) :=
  ⟨Or.inl rfl, by decide, by decide, by decide,
    store_raw_policy target32 toyCodec [7, 7, 7, 7] [7] (Or.inl rfl) (by decide) (by decide)
      (by decide)⟩

/-- C2 (store-raw policy), evaluated where it fails: with a 64-bit `lzo_uint`
and the over-wide shift of the flag mask folding to 0, the block `9 9` is
stored raw (the payload is the block itself) both when the compressor returns
3 bytes for it (`C > L`) and when it returns 2 bytes (`C = L`), and the
header written is the word 2: the flag is not set, and lines 175-180 read the
flag 0 and the length 2 from it. -/
theorem raw_flag_unset_lp64 :
    toyCodec.compress [9, 9] = some [1, 9, 9] ∧
    (encodeBlock target64 toyCodec [9, 9]).frame? = some ⟨2, [9, 9]⟩ ∧
    failCodec.compress [9, 9] = some [9, 9] ∧
    (encodeBlock target64 failCodec [9, 9]).frame? = some ⟨2, [9, 9]⟩ ∧
    GetBit target64 2 = 0 ∧ decodeHeader target64 2 = (0, 2) := by
  refine ⟨?_, ?_, ?_, ?_, ?_, ?_⟩ <;> decide

/-- On a 32-bit `lzo_uint` the header of a raw frame is `2 ^ 31 + L` and the
header of a compressed frame is the payload length. -/
theorem header_word_of_four (t : Target) (c : Codec) (blk out : List Byte)
    (ht : t.sizeofUint = 4) (hl : blk.length ≤ IN_LEN) (hc : c.compress blk = some out) :
    ∃ f, (encodeBlock t c blk).frame? = some f ∧
      (blk.length ≤ out.length → f.header = 2 ^ (uintBits t - 1) + blk.length) ∧
      (out.length < blk.length → f.header = out.length) := by
  have hlt : blk.length < 2 ^ 31 := by unfold IN_LEN at hl; omega
  have hb : uintBits t = 32 := by simp [uintBits, ht]
  rcases encodeBlock_frame t c blk out hc with ⟨hlen, hf⟩ | ⟨hlen, hf⟩
  · exact ⟨_, hf, fun h => absurd h (by omega), fun _ => rfl⟩
  · refine ⟨_, hf, fun _ => ?_, fun h => absurd h (by omega)⟩
    show SetBit t blk.length = _
    rw [SetBit_flag t (Or.inl ht) (shlOne_of_four t ht) _ hlt, hb]
    omega

theorem wrapInt_range (x : Int) : -2 ^ 31 ≤ wrapInt x ∧ wrapInt x < 2 ^ 31 := by
  unfold wrapInt
  omega

/-- With a 64-bit `lzo_uint`, no `int` mask sets exactly bit 63 of the length 1. -/
theorem SetBit_lp64_ne (v : Int) : SetBit ⟨8, v⟩ 1 ≠ 2 ^ 63 + 1 := by
  intro h
  unfold SetBit at h
  have hs : sigbit ⟨8, v⟩ = 63 := by simp [sigbit]
  rw [hs] at h
  have hsh : shlOne ⟨8, v⟩ 63 = wrapInt v := by simp [shlOne]
  rw [hsh] at h
  obtain ⟨h1, h2⟩ := wrapInt_range v
  simp only [toUint, uintBits] at h
  generalize hM : (wrapInt v % (2 : Int) ^ (8 * 8)).toNat = M at h
  have hMlt : M < 2 ^ 64 := by omega
  have hor : 1 ||| M < 2 ^ 64 := Nat.or_lt_two_pow (by norm_num) hMlt
  rw [Nat.mod_eq_of_lt hor] at h
  by_cases hneg : wrapInt v < 0
  · have hMge : 2 ^ 64 - 2 ^ 31 ≤ M := by omega
    have hb : (1 ||| M).testBit 62 = true := by
      rw [Nat.testBit_or, Nat.testBit_to_div_mod (x := M)]
      have : M / 2 ^ 62 % 2 = 1 := by omega
      rw [this]
      simp
    rw [h] at hb
    revert hb
    decide
  · have hMs : M < 2 ^ 31 := by omega
    have := Nat.or_lt_two_pow (x := 1) (by norm_num) hMs
    omega

/-- C3 (header bit layout), evaluated where it fails: with a 64-bit
`lzo_uint` a raw frame for a 1-byte block gets the header word 1 when the
shift of the flag mask folds to 0, and for no value of that shift does it get
the word `2 ^ 63 + 1` that a flag in bit 63 would give. -/
theorem header_word_lp64 :
    (encodeBlock target64 toyCodec [0]).frame? = some ⟨1, [0]⟩ ∧
    ∀ v : Int, (encodeBlock ⟨8, v⟩ toyCodec [0]).frame? ≠ some ⟨2 ^ 63 + 1, [0]⟩ := by
  refine ⟨by decide, ?_⟩
  intro v h
  have hc : toyCodec.compress [0] = some [1, 0] := by decide
  rcases encodeBlock_frame ⟨8, v⟩ toyCodec [0] [1, 0] hc with ⟨hlen, _⟩ | ⟨_, hf⟩
  · simp at hlen
  · rw [hf] at h
    simp only [Option.some.injEq, Frame.mk.injEq, and_true] at h
    exact SetBit_lp64_ne v h

/-- Where the flag mask is 0, `SetBit` leaves a length as it is. -/
theorem SetBit_of_zero (t : Target) (hsz : t.sizeofUint = 4 ∨ t.sizeofUint = 8)
    (h0 : shlOne t (sigbit t) = 0) (v : Nat) (hv : v < 2 ^ 31) : SetBit t v = v := by
  unfold SetBit
  rw [h0]
  have hz : toUint t 0 = 0 := by simp [toUint]
  rw [hz, Nat.or_zero]
  apply Nat.mod_eq_of_lt
  have := two_pow_31_lt_uint t hsz
  omega

/-- C4 (header invariant): on a target whose `lzo_uint` has 32 or 64 bits and
on which the `int` expression `0x1 << sigbit(val)` is `INT_MIN` (as it always
is with 32 bits, and with 64 bits where the shift instruction takes its count
modulo 32) or 0 (with 64 bits where the compiler folds the over-wide shift to
0), every encode pass ends, with any codec, and for every frame it has
written, raw or compressed, the length that lines 175-180 take from the header
(flag cleared) is the number of payload bytes written behind that header. -/
theorem header_invariant (t : Target) (c : Codec) (S : List Byte) (buf : Nat → Byte)
    (hsz : t.sizeofUint = 4 ∨ t.sizeofUint = 8)
    (hmask : shlOne t (sigbit t) = -2 ^ 31 ∨ shlOne t (sigbit t) = 0) :
    ∃ o e, encodePass t c S buf = some (o, e) ∧
      ∀ f ∈ e.fp, (decodeHeader t f.header).2 = f.payload.length := by
  obtain ⟨o, e, h, _⟩ := encodePass_total t c S buf
  refine ⟨o, e, h, ?_⟩
  intro f hf
  obtain ⟨b, _, hl, hbf⟩ := encodePass_frame_origin t c S buf o e h f hf
  have hlt : b.length < 2 ^ 31 := by unfold IN_LEN at hl; omega
  cases hco : c.compress b with
  | none => simp [encodeBlock, hco, BlockResult.frame?] at hbf
  | some out =>
    rcases encodeBlock_frame t c b out hco with ⟨hlen, h1⟩ | ⟨_, h1⟩
    · rw [h1] at hbf
      cases hbf
      have hg : GetBit t out.length = 0 := GetBit_low t hsz _ (by omega)
      simp [decodeHeader, hg]
    · rw [h1] at hbf
      cases hbf
      rcases hmask with hm | hm
      · simp only [decodeHeader, GetBit_SetBit t hsz hm _ hlt, ResetBit_SetBit t hsz hm _ hlt]
        simp
      · have hs : SetBit t b.length = b.length := SetBit_of_zero t hsz hm _ hlt
        have hg : GetBit t b.length = 0 := GetBit_low t hsz _ hlt
        simp [decodeHeader, hs, hg]

theorem header_invariant_witness :
    ((target32.sizeofUint = 4 ∨ target32.sizeofUint = 8) ∧
      (shlOne target32 (sigbit target32) = -2 ^ 31 ∨ shlOne target32 (sigbit target32) = 0) ∧
      (encodeBlock target32 toyCodec [9, 9]).frame? = some ⟨2 ^ 31 + 2, [9, 9]⟩ ∧
      ∃ o e, encodePass target32 toyCodec [9, 9] zeroBuf = some (o, e) ∧
        ∀ f ∈ e.fp, (decodeHeader target32 f.header).2 = f.payload.length) ∧
    ((target64.sizeofUint = 4 ∨ target64.sizeofUint = 8) ∧
      (shlOne target64 (sigbit target64) = -2 ^ 31 ∨ shlOne target64 (sigbit target64) = 0) ∧
      (encodeBlock target64 toyCodec [9, 9]).frame? = some ⟨2, [9, 9]⟩ ∧
      ∃ o e, encodePass target64 toyCodec [9, 9] zeroBuf = some (o, e) ∧
        ∀ f ∈ e.fp, (decodeHeader target64 f.header).2 = f.payload.length) ∧
    ((encodeBlock target32 toyCodec [7, 7, 7, 7]).frame? = some ⟨1, [7]⟩ ∧
      ∃ o e, encodePass target32 toyCodec [7, 7, 7, 7] zeroBuf = some (o, e) ∧
        ∀ f ∈ e.fp, (decodeHeader target32 f.header).2 = f.payload.length) :=
  ⟨⟨Or.inl rfl, Or.inl (by decide), by decide,
      header_invariant target32 toyCodec [9, 9] zeroBuf (Or.inl rfl) (Or.inl (by decide))⟩,
    ⟨Or.inr rfl, Or.inr (by decide), by decide,
      header_invariant target64 toyCodec [9, 9] zeroBuf (Or.inr rfl) (Or.inr (by decide))⟩,
    ⟨by decide,
      header_invariant target32 toyCodec [7, 7, 7, 7] zeroBuf (Or.inl rfl)
        (Or.inl (by decide))⟩⟩

/-- C5 (raw fallback bound): on every target, for every block and whatever
bytes the compressor returns for it, the frame written for the block takes at
most `sizeof(lzo_uint)` bytes more than the block. -/
theorem raw_fallback_bound (t : Target) (c : Codec) (blk out : List Byte)
    (hc : c.compress blk = some out) :
    ∃ f, (encodeBlock t c blk).frame? = some f ∧
      (frameBytes t f).length ≤ t.sizeofUint + blk.length := by
  rcases encodeBlock_frame t c blk out hc with ⟨hlen, hf⟩ | ⟨_, hf⟩
  · refine ⟨_, hf, ?_⟩
    simp only [frameBytes, List.length_append, uintBytes_length]
    omega
  · refine ⟨_, hf, ?_⟩
    simp only [frameBytes, List.length_append, uintBytes_length]
    omega

theorem raw_fallback_bound_witness :
    toyCodec.compress [9, 9] = some [1, 9, 9] ∧
    ∃ f, (encodeBlock target32 toyCodec [9, 9]).frame? = some f ∧
      (frameBytes target32 f).length ≤ target32.sizeofUint + ([9, 9] : List Byte).length :=
  ⟨by decide, raw_fallback_bound target32 toyCodec [9, 9] [1, 9, 9] (by decide)⟩

/-- A block of one byte that got both its writes was stored raw. -/
theorem encodeBlock_wrote_one (t : Target) (c : Codec) (b : List Byte) (f : Frame)
    (hb : b.length = 1) (hf : encodeBlock t c b = .wrote f) : f.payload.length = 1 := by
  unfold encodeBlock at hf
  cases hco : c.compress b with
  | none => rw [hco] at hf; cases hf
  | some out =>
    rw [hco] at hf
    simp only at hf
    by_cases hlen : out.length < b.length
    · have h0 : out.length = 0 := by omega
      simp [hb, fwriteOne, h0] at hf
    · have h1 : fwriteOne b = 1 := by simp [fwriteOne, hb]
      simp only [hlen, h1, ↓reduceIte, ne_eq, not_true_eq_false] at hf
      cases hf
      exact hb

/-- C6 (chunking): with a compressor that returns a non-empty output for every
non-empty block of at most 65536 bytes (so no block ends the pass), the encode
pass on an input of `n` bytes ends normally having written exactly
`ceil (n / 65536)` frames; frame `i` is the frame of the input bytes
`[65536 * i, min (65536 * (i + 1)) n)`, every block but the last has 65536
bytes; 65536 bytes of input give one frame, 65537 bytes give two, the second
with a payload of 1 byte. -/
theorem chunking (t : Target) (c : Codec) (S : List Byte) (buf : Nat → Byte)
    (hw : ∀ b : List Byte, b ≠ [] → b.length ≤ 65536 →
      ∃ out, c.compress b = some out ∧ out ≠ []) :
    ∃ e, encodePass t c S buf = some (.done, e) ∧
      e.fp.length = (S.length + 65535) / 65536 ∧
      (∀ (i : Nat) (hi : i < e.fp.length),
        encodeBlock t c ((S.drop (65536 * i)).take 65536) = .wrote (e.fp.get ⟨i, hi⟩) ∧
        ((S.drop (65536 * i)).take 65536).length = min 65536 (S.length - 65536 * i) ∧
        (i + 1 < e.fp.length → ((S.drop (65536 * i)).take 65536).length = 65536)) ∧
      (S.length = 65536 → e.fp.length = 1) ∧
      (S.length = 65537 → ∃ f0 f1, e.fp = [f0, f1] ∧ f1.payload.length = 1) := by
  have hw1 : ∀ b : List Byte, b ≠ [] → b.length ≤ IN_LEN →
      ∃ f, encodeBlock t c b = .wrote f := by
    intro b hb hl
    obtain ⟨out, h1, h2⟩ := hw b hb hl
    exact encodeBlock_wrote t c b out hb h1 h2
  obtain ⟨e, he1, he2⟩ := encodePass_blocks t c hw1 S buf
  have hlen : e.fp.length = (S.length + 65535) / 65536 := by
    have := congrArg List.length he2
    simpa [blocksOf, IN_LEN] using this
  have hidx : ∀ (i : Nat) (hi : i < e.fp.length),
      encodeBlock t c ((S.drop (65536 * i)).take 65536) = .wrote (e.fp.get ⟨i, hi⟩) := by
    intro i hi
    have h1 : i < (e.fp.map BlockResult.wrote).length := by simpa using hi
    have h2 : i < ((blocksOf S).map (encodeBlock t c)).length := by rw [← he2]; exact h1
    have h3 : (e.fp.map BlockResult.wrote)[i] = ((blocksOf S).map (encodeBlock t c))[i] := by
      simp only [he2]
    simp only [List.getElem_map, blocksOf, List.getElem_range, IN_LEN] at h3
    simp only [List.get_eq_getElem]
    exact h3.symm
  refine ⟨e, he1, hlen, ?_, ?_, ?_⟩
  · intro i hi
    refine ⟨hidx i hi, by simp, ?_⟩
    intro h
    simp only [List.length_take, List.length_drop]
    omega
  · intro h; omega
  · intro h
    have h2 : e.fp.length = 2 := by omega
    match hfp : e.fp, h2 with
    | [f0, f1], _ =>
      refine ⟨f0, f1, rfl, ?_⟩
      have := hidx 1 (by omega)
      apply encodeBlock_wrote_one t c _ _ _ (by simpa [hfp] using this)
      simp only [List.length_take, List.length_drop]
      omega

theorem chunking_witness :
    (∀ b : List Byte, b ≠ [] → b.length ≤ 65536 →
      ∃ out, toyCodec.compress b = some out ∧ out ≠ []) ∧
    ∃ e, encodePass target32 toyCodec [7, 7, 7, 7] zeroBuf = some (.done, e) ∧
      e.fp.length = (([7, 7, 7, 7] : List Byte).length + 65535) / 65536 ∧
      (∀ (i : Nat) (hi : i < e.fp.length),
        encodeBlock target32 toyCodec ((([7, 7, 7, 7] : List Byte).drop (65536 * i)).take 65536)
          = .wrote (e.fp.get ⟨i, hi⟩) ∧
        ((([7, 7, 7, 7] : List Byte).drop (65536 * i)).take 65536).length
          = min 65536 (([7, 7, 7, 7] : List Byte).length - 65536 * i) ∧
        (i + 1 < e.fp.length →
          ((([7, 7, 7, 7] : List Byte).drop (65536 * i)).take 65536).length = 65536)) ∧
      (([7, 7, 7, 7] : List Byte).length = 65536 → e.fp.length = 1) ∧
      (([7, 7, 7, 7] : List Byte).length = 65537 →
        ∃ f0 f1, e.fp = [f0, f1] ∧ f1.payload.length = 1) :=
  ⟨fun b hb hl => (toyCodec_ok b hb hl).imp fun _ h => ⟨h.1, h.2.1⟩,
    chunking target32 toyCodec [7, 7, 7, 7] zeroBuf
      (fun b hb hl => (toyCodec_ok b hb hl).imp fun _ h => ⟨h.1, h.2.1⟩)⟩

/-- C7 (empty input): on every target and with every codec, the encode pass on
an empty input ends normally with no frame written, so the container is
empty, and the decode pass on an empty container ends with status 0 and an
empty reconstruction. -/
theorem empty_input (t : Target) (c : Codec) (buf : Nat → Byte) (nl : Nat) :
    (∃ e, encodePass t c [] buf = some (.done, e) ∧ e.fp = [] ∧
      containerBytes t e.fp = []) ∧
    decodePass t c [] buf nl = some ⟨.done, .exit 0, []⟩ := by
  constructor
  · refine ⟨⟨⟨[], true⟩, store buf [], [], 0⟩, ?_, rfl, rfl⟩
    simp [encodePass, encodeLoop, encodeIter, encodeStart, fread, IN_LEN]
  · have h1 : (fread ⟨[], false⟩ t.sizeofUint).1.length = 0 := by rw [fread_fst]; simp
    simp only [decodePass, decodeStart, List.length_nil, Nat.zero_add, decodeLoop, decodeIter, h1,
      ↓reduceIte, Option.map_some', afterDecode]

/-! ## The decode pass on damaged containers -/

theorem fread_lengths (f : InFile) (n : Nat) :
    (fread f n).2.rest.length + (fread f n).1.length = f.rest.length := by
  rw [fread_fst, fread_snd_rest, List.length_take, List.length_drop]
  omega

/-- A pass through the body of the decode loop that does not leave the loop
takes at least one header byte and one payload byte from the stream. -/
theorem decodeIter_next_length (t : Target) (c : Codec) (s s1 : DecState)
    (h : decodeIter t c s = .next s1) : s1.fs.rest.length + 2 ≤ s.fs.rest.length := by
  have hA := fread_lengths s.fs t.sizeofUint
  unfold decodeIter at h
  simp only at h
  split at h
  · cases h
  · next hh =>
    have hB := fread_lengths (fread s.fs t.sizeofUint).2
      (decodeHeader t (leValue ((fread s.fs t.sizeofUint).1 ++
        (uintBytes t s.new_len).drop (fread s.fs t.sizeofUint).1.length))).2
    split at h
    · cases h
    · split at h
      · cases h
      · next hp =>
        split at h
        · split at h
          · split at h
            · cases h
            · cases h
              simp only
              omega
          · cases h
        · split at h
          · cases h
          · split at h
            · cases h
            · cases h
              simp only
              omega

theorem decodeSteps_length (t : Target) (c : Codec) (j : Nat) :
    ∀ (s0 s : DecState), decodeSteps t c j s0 = some s →
      s.fs.rest.length + 2 * j ≤ s0.fs.rest.length := by
  induction j with
  | zero =>
    intro s0 s h
    simp only [decodeSteps, Option.some.injEq] at h
    subst h
    omega
  | succ j ih =>
    intro s0 s h
    rw [decodeSteps] at h
    cases hi : decodeIter t c s0 with
    | stop o s1 => rw [hi] at h; cases h
    | next s1 =>
      rw [hi] at h
      have h1 := decodeIter_next_length t c s0 s1 hi
      have h2 := ih s1 s h
      omega

theorem decodeLoop_of_steps (t : Target) (c : Codec) (j : Nat) :
    ∀ (s0 s : DecState) (k : Nat), decodeSteps t c j s0 = some s →
      decodeLoop t c (j + k) s0 = decodeLoop t c k s := by
  induction j with
  | zero =>
    intro s0 s k h
    simp only [decodeSteps, Option.some.injEq] at h
    subst h
    rw [Nat.zero_add]
  | succ j ih =>
    intro s0 s k h
    rw [decodeSteps] at h
    cases hi : decodeIter t c s0 with
    | stop o s1 => rw [hi] at h; cases h
    | next s1 =>
      rw [hi] at h
      rw [show j + 1 + k = (j + k) + 1 by omega, decodeLoop, hi]
      exact ih s1 s k h

/-- The decode pass, once `j` frames are behind it, is decided by the next
pass through the loop body if that pass leaves the loop. -/
theorem decodePass_of_steps (t : Target) (c : Codec) (container : List Byte)
    (buf : Nat → Byte) (nl j : Nat) (s s1 : DecState) (o : Outcome)
    (hsteps : decodeSteps t c j (decodeStart container buf nl) = some s)
    (hstop : decodeIter t c s = .stop o s1) :
    decodePass t c container buf nl = some ⟨o, afterDecode o, s1.fp⟩ := by
  have hlen := decodeSteps_length t c j _ s hsteps
  simp only [decodeStart] at hlen
  obtain ⟨k, hk⟩ : ∃ k, container.length + 1 = j + (k + 1) :=
    ⟨container.length - j, by omega⟩
  unfold decodePass
  rw [hk, decodeLoop_of_steps t c j _ s (k + 1) hsteps, decodeLoop, hstop]
  rfl

/-- C10 (corruption detection): on every target, when the decode pass has
`j` passes through its loop behind it and the stream continues with a header
whose flag is 0 and whose length is that of the non-empty payload `p` of at
most `IN_LEN` bytes behind it, and the decompressor reports an error on `p`,
then the program ends with exit status 1 (not 0), and `de_test` holds exactly
what the `j` earlier frames wrote: nothing is written for the failing frame. -/
theorem corruption_detected (t : Target) (c : Codec) (container : List Byte)
    (buf : Nat → Byte) (nl j : Nat) (s : DecState) (p tail : List Byte)
    (hsteps : decodeSteps t c j (decodeStart container buf nl) = some s)
    (hs : s.fs.rest = uintBytes t p.length ++ (p ++ tail))
    (hfit : p.length < 2 ^ uintBits t) (hflag : GetBit t p.length = 0)
    (hp0 : p ≠ []) (hpl : p.length ≤ IN_LEN) (hfail : c.decompress p = none) :
    decodePass t c container buf nl = some ⟨.exit 1, .exit 1, s.fp⟩ := by
  obtain ⟨h1, h2, h3⟩ := decodeIter_reads t s p.length p tail hs
  rw [leValue_uintBytes_of_lt t _ hfit] at h3
  have hpos : 0 < p.length := List.length_pos.mpr hp0
  have hsz : t.sizeofUint ≠ 0 := by
    intro h0
    have h5 : 2 ^ uintBits t = 1 := by simp [uintBits, h0]
    rw [h5] at hfit
    omega
  have h4 : (fread (fread s.fs t.sizeofUint).2 p.length).1 = p := by
    rw [fread_fst, h2, List.take_left' rfl]
  have e1 : (fread s.fs t.sizeofUint).1.length ≠ 0 := by
    rw [h1, uintBytes_length]; exact hsz
  have e2 : ¬ IN_LEN < p.length := by omega
  have e3 : p.length ≠ 0 := by omega
  have hstop : decodeIter t c s = .stop (.exit 1)
      { fs := (fread (fread s.fs t.sizeofUint).2 p.length).2, inBuf := store s.inBuf p,
        new_len := p.length, fp := s.fp, cnt := s.cnt } := by
    simp only [decodeIter, decodeHeader, h3, hflag, ne_eq, not_true_eq_false, ↓reduceIte, h4,
      hfail, e1, e2, e3]
  have hrun := decodePass_of_steps t c container buf nl j s _ _ hsteps hstop
  exact hrun

theorem corruption_detected_witness :
    decodeSteps target32 toyCodec 1
        (decodeStart [1, 0, 0, 0, 7, 1, 0, 0, 0, 9, 5, 5] zeroBuf 0)
      = some ⟨⟨[1, 0, 0, 0, 9, 5, 5], false⟩, store zeroBuf [7], 1, [7, 7, 7, 7], 1⟩ ∧
    ([1, 0, 0, 0, 9, 5, 5] : List Byte)
      = uintBytes target32 ([9] : List Byte).length ++ ([9] ++ [5, 5]) ∧
    ([9] : List Byte).length < 2 ^ uintBits target32 ∧
    GetBit target32 ([9] : List Byte).length = 0 ∧
    ([9] : List Byte) ≠ [] ∧ ([9] : List Byte).length ≤ IN_LEN ∧
    toyCodec.decompress [9] = none ∧
    decodePass target32 toyCodec [1, 0, 0, 0, 7, 1, 0, 0, 0, 9, 5, 5] zeroBuf 0
      = some ⟨.exit 1, .exit 1, [7, 7, 7, 7]⟩ :=
  ⟨rfl, by decide, by decide, by decide, by decide, by decide, by decide,
    corruption_detected target32 toyCodec [1, 0, 0, 0, 7, 1, 0, 0, 0, 9, 5, 5] zeroBuf 0 1
      ⟨⟨[1, 0, 0, 0, 9, 5, 5], false⟩, store zeroBuf [7], 1, [7, 7, 7, 7], 1⟩ [9] [5, 5]
      rfl (by decide) (by decide) (by decide) (by decide) (by decide) (by decide)⟩

/-- At the end of the stream the loop condition fails. -/
theorem decodeIter_at_end (t : Target) (c : Codec) (s : DecState) (hrest : s.fs.rest = []) :
    ∃ s1, decodeIter t c s = .stop .done s1 ∧ s1.fp = s.fp := by
  have h0 : (fread s.fs t.sizeofUint).1.length = 0 := by rw [fread_fst, hrest]; simp
  exact ⟨{ s with fs := (fread s.fs t.sizeofUint).2 }, by simp only [decodeIter, h0, ↓reduceIte],
    rfl⟩

/-- The stream ends inside or right behind a header: the header read delivers
at least one byte, the payload read none, and the loop is left by `break`
with nothing written. -/
theorem decodeIter_short (t : Target) (c : Codec) (s : DecState)
    (hne : s.fs.rest ≠ []) (hrest : s.fs.rest.length ≤ t.sizeofUint) :
    ∃ s1, decodeIter t c s = .stop .broke s1 ∧ s1.fp = s.fp := by
  have h0 : (fread s.fs t.sizeofUint).1.length ≠ 0 := by
    rw [fread_fst, List.length_take]
    have := List.length_pos.mpr hne
    omega
  have h2 : (fread s.fs t.sizeofUint).2.rest = [] := by
    rw [fread_snd_rest]; exact List.drop_eq_nil_of_le hrest
  have h3 : ∀ n, (fread (fread s.fs t.sizeofUint).2 n).1 = [] := by
    intro n; rw [fread_fst, h2]; simp
  simp only [decodeIter, h0, ↓reduceIte, h3, List.length_nil, Nat.not_lt_zero]
  exact ⟨_, rfl, rfl⟩

/-- What the decode loop does with the end of a stream: on every target, when
the decode pass has `j` passes through its loop behind it and fewer than
`sizeof(lzo_uint)` bytes remain, then with no byte left the loop ends by its
condition, and with a part of a header left the bytes are taken for a header,
no payload is found, and the loop is left by the `break` behind the `error!!!`
message; in both cases nothing more is written and `main` returns 0. -/
theorem header_cut_short (t : Target) (c : Codec) (container : List Byte)
    (buf : Nat → Byte) (nl j : Nat) (s : DecState)
    (hsteps : decodeSteps t c j (decodeStart container buf nl) = some s)
    (hrest : s.fs.rest.length < t.sizeofUint) :
    decodePass t c container buf nl
      = some ⟨if s.fs.rest = [] then .done else .broke, .exit 0, s.fp⟩ := by
  by_cases hne : s.fs.rest = []
  · obtain ⟨s1, h1, h2⟩ := decodeIter_at_end t c s hne
    rw [if_pos hne, ← h2]
    exact decodePass_of_steps t c container buf nl j s s1 .done hsteps h1
  · obtain ⟨s1, h1, h2⟩ := decodeIter_short t c s hne (le_of_lt hrest)
    rw [if_neg hne, ← h2]
    exact decodePass_of_steps t c container buf nl j s s1 .broke hsteps h1

theorem header_cut_short_witness :
    decodeSteps target32 toyCodec 1 (decodeStart [1, 0, 0, 0, 7, 1, 0] zeroBuf 0)
      = some ⟨⟨[1, 0], false⟩, store zeroBuf [7], 1, [7, 7, 7, 7], 1⟩ ∧
    ([1, 0] : List Byte).length < target32.sizeofUint ∧
    decodePass target32 toyCodec [1, 0, 0, 0, 7, 1, 0] zeroBuf 0
      = some ⟨if ([1, 0] : List Byte) = [] then .done else .broke, .exit 0, [7, 7, 7, 7]⟩ :=
  ⟨rfl, by decide,
    header_cut_short target32 toyCodec [1, 0, 0, 0, 7, 1, 0] zeroBuf 0 1
      ⟨⟨[1, 0], false⟩, store zeroBuf [7], 1, [7, 7, 7, 7], 1⟩ rfl (by decide)⟩

/-- C11 (usage error), evaluated where it fails: started with four arguments
(`argc = 4`, `argv` not null) the program does not end as a usage error; it
calls `lzo_init`, opens its four files, runs both passes on `argv[1]` and
`argv[2]` and returns 0.  More generally, whenever `argv` is not null
`lzo_init` is called, whatever `argc` is. -/
theorem usage_check_dead :
    main target32 toyCodec 4 false true [7, 7, 7, 7] 0
      = ⟨some 0, true, 4, [1, 0, 0, 0, 7], [7, 7, 7, 7]⟩ ∧
    ∀ (t : Target) (c : Codec) (argc : Nat) (initOk : Bool) (infile : List Byte) (nl : Nat),
      (main t c argc false initOk infile nl).initCalled = true := by
  refine ⟨by decide, ?_⟩
  intro t c argc initOk infile nl
  unfold main
  simp only [Bool.false_eq_true, and_false, ↓reduceIte, false_or]
  split
  · rfl
  · split
    · rfl
    · split
      · rfl
      · split
        · rfl
        · split <;> rfl
        · rfl

/-! ## Raw frames and the flag macros -/

/-- Raw frames where the flag works: on every target, when the stream at a
frame boundary holds a header word whose flag `GetBit` reads as 1 and whose
length `ResetBit` gives as `n`, followed by `n` payload bytes with
`1 ≤ n ≤ IN_LEN`, the pass through the loop body appends exactly those `n`
bytes to `de_test` and goes on behind the frame; it does so with every codec
(the result of the pass is the same for any two codecs, so also for one whose
decompressor always fails). -/
theorem raw_frame_bypasses_codec (t : Target) (c c2 : Codec) (s : DecState) (w : Nat)
    (p tail : List Byte)
    (hfit : w < 2 ^ uintBits t) (hflag : GetBit t w = 1) (hlen : ResetBit t w = p.length)
    (hp0 : p ≠ []) (hpl : p.length ≤ IN_LEN)
    (hs : s.fs.rest = uintBytes t w ++ (p ++ tail)) :
    (∃ s1, decodeIter t c s = .next s1 ∧ s1.fs.rest = tail ∧ s1.fp = s.fp ++ p) ∧
    decodeIter t c2 s = decodeIter t c s := by
  obtain ⟨h1, h2, h3⟩ := decodeIter_reads t s w p tail hs
  rw [leValue_uintBytes_of_lt t _ hfit] at h3
  have hpl0 : 0 < p.length := List.length_pos.mpr hp0
  have hsz : t.sizeofUint ≠ 0 := by
    intro h0
    have h5 : 2 ^ uintBits t = 1 := by simp [uintBits, h0]
    rw [h5] at hfit
    have hw0 : w = 0 := by omega
    rw [hw0] at hflag
    simp [GetBit] at hflag
  have h4 : (fread (fread s.fs t.sizeofUint).2 p.length).1 = p := by
    rw [fread_fst, h2, List.take_left' rfl]
  have h5 : (fread (fread s.fs t.sizeofUint).2 p.length).2.rest = tail := by
    rw [fread_snd_rest, h2, List.drop_left' rfl]
  have e1 : (fread s.fs t.sizeofUint).1.length ≠ 0 := by
    rw [h1, uintBytes_length]; exact hsz
  have e2 : ¬ IN_LEN < p.length := by omega
  have e3 : p.length ≠ 0 := by omega
  have e4 : fwriteOne p = 1 := by simp [fwriteOne, hp0]
  have key : ∀ cc : Codec, decodeIter t cc s = .next
      { fs := (fread (fread s.fs t.sizeofUint).2 p.length).2, inBuf := store s.inBuf p,
        new_len := p.length, fp := s.fp ++ p, cnt := (s.cnt + 1) % 2 ^ 32 } := by
    intro cc
    simp only [decodeIter, decodeHeader, h3, hflag, hlen, ne_eq, one_ne_zero, not_false_eq_true,
      not_true_eq_false, ↓reduceIte, h4, e1, e2, e3, e4, bufTake_store]
  exact ⟨⟨_, key c, h5, rfl⟩, by rw [key c, key c2]⟩

theorem raw_frame_bypasses_codec_witness :
    2 ^ 31 + 2 < 2 ^ uintBits target32 ∧ GetBit target32 (2 ^ 31 + 2) = 1 ∧
    ResetBit target32 (2 ^ 31 + 2) = ([5, 6] : List Byte).length ∧
    ([5, 6] : List Byte) ≠ [] ∧ ([5, 6] : List Byte).length ≤ IN_LEN ∧
    (decodeStart [2, 0, 0, 128, 5, 6, 9] zeroBuf 0).fs.rest
      = uintBytes target32 (2 ^ 31 + 2) ++ ([5, 6] ++ [9]) ∧
    (∃ s1, decodeIter target32 toyCodec (decodeStart [2, 0, 0, 128, 5, 6, 9] zeroBuf 0)
        = .next s1 ∧ s1.fs.rest = [9] ∧
      s1.fp = (decodeStart [2, 0, 0, 128, 5, 6, 9] zeroBuf 0).fp ++ [5, 6]) ∧
    decodeIter target32 failCodec (decodeStart [2, 0, 0, 128, 5, 6, 9] zeroBuf 0)
      = decodeIter target32 toyCodec (decodeStart [2, 0, 0, 128, 5, 6, 9] zeroBuf 0) :=
  ⟨by decide, by decide, by decide, by decide, by decide, by decide,
    raw_frame_bypasses_codec target32 toyCodec failCodec
      (decodeStart [2, 0, 0, 128, 5, 6, 9] zeroBuf 0) (2 ^ 31 + 2) [5, 6] [9]
      (by decide) (by decide) (by decide) (by decide) (by decide) (by decide)⟩

/-- The flag macros where the mask is right: on a target whose `lzo_uint`
has 32 or 64 bits and on which the `int` expression `0x1 << sigbit(val)` is
`INT_MIN` (with 32 bits it always is), for every `v ≤ 65536` the macros give
`GetBit(v) = 0`, `GetBit(SetBit(v)) = 1` and `ResetBit(SetBit(v)) = v`. -/
theorem flag_macros_consistent (t : Target) (v : Nat)
    (hsz : t.sizeofUint = 4 ∨ t.sizeofUint = 8) (hmask : shlOne t (sigbit t) = -2 ^ 31)
    (hv : v ≤ 65536) :
    GetBit t v = 0 ∧ GetBit t (SetBit t v) = 1 ∧ ResetBit t (SetBit t v) = v := by
  have hlt : v < 2 ^ 31 := by omega
  exact ⟨GetBit_low t hsz v hlt, GetBit_SetBit t hsz hmask v hlt,
    ResetBit_SetBit t hsz hmask v hlt⟩

theorem flag_macros_consistent_witness :
    (target32.sizeofUint = 4 ∨ target32.sizeofUint = 8) ∧
    shlOne target32 (sigbit target32) = -2 ^ 31 ∧ 65536 ≤ 65536 ∧
    GetBit target32 65536 = 0 ∧ GetBit target32 (SetBit target32 65536) = 1 ∧
    ResetBit target32 (SetBit target32 65536) = 65536 :=
  ⟨Or.inl rfl, by decide, le_refl _,
    flag_macros_consistent target32 65536 (Or.inl rfl) (by decide) (le_refl _)⟩

/-- C13 (flag macros are mutually consistent), evaluated where it fails: with
a 64-bit `lzo_uint` and the over-wide shift of the mask folding to 0, `SetBit`
leaves 65536 (and 1) as they are and `GetBit` reads the flag 0 from the
result, where the claim has 1. -/
theorem flag_lost_when_shift_folds :
    SetBit target64 65536 = 65536 ∧ GetBit target64 (SetBit target64 65536) = 0 ∧
    SetBit target64 1 = 1 ∧ GetBit target64 (SetBit target64 1) = 0 := by
  refine ⟨?_, ?_, ?_, ?_⟩ <;> decide

/-! ## Empty payloads -/

/-- A frame that got both its writes has a payload of at least one byte. -/
theorem wrote_payload_ne (t : Target) (c : Codec) (b : List Byte) (f : Frame)
    (hf : encodeBlock t c b = .wrote f) : f.payload ≠ [] := by
  unfold encodeBlock at hf
  cases hco : c.compress b with
  | none => rw [hco] at hf; cases hf
  | some out =>
    rw [hco] at hf
    simp only at hf
    by_cases hlen : out.length < b.length
    · rw [if_pos hlen] at hf
      by_cases hw : fwriteOne out ≠ 1
      · rw [if_pos hw] at hf; cases hf
      · rw [if_neg hw] at hf
        cases hf
        intro h
        apply hw
        have h1 : out = [] := h
        simp [fwriteOne, h1]
    · rw [if_neg hlen] at hf
      by_cases hw : fwriteOne b ≠ 1
      · rw [if_pos hw] at hf; cases hf
      · rw [if_neg hw] at hf
        cases hf
        intro h
        apply hw
        have h1 : b = [] := h
        simp [fwriteOne, h1]

/-- An encode loop that ends by its condition has added only frames with a
non-empty payload. -/
theorem encodeLoop_done_payload (t : Target) (c : Codec) (fuel : Nat) :
    ∀ (s e : EncState), encodeLoop t c fuel s = some (.done, e) →
      (∀ f ∈ s.fp, f.payload ≠ []) → ∀ f ∈ e.fp, f.payload ≠ [] := by
  induction fuel with
  | zero => intro s e h; simp [encodeLoop] at h
  | succ fuel ih =>
    intro s e h hs
    rw [encodeLoop] at h
    unfold encodeIter at h
    by_cases he : s.fs.eof = true
    · simp only [he, ↓reduceIte, Option.some.injEq, Prod.mk.injEq, true_and] at h
      subst h
      exact hs
    · simp only [he, Bool.false_eq_true, ↓reduceIte] at h
      by_cases h0 : (fread s.fs IN_LEN).1.length = 0
      · simp only [h0, ↓reduceIte] at h
        exact ih _ e h hs
      · simp only [h0, ↓reduceIte] at h
        cases hb : encodeBlock t c (fread s.fs IN_LEN).1 with
        | compressFailed => rw [hb] at h; simp at h
        | shortWrite f => rw [hb] at h; simp at h
        | wrote f =>
          rw [hb] at h
          apply ih _ e h
          intro g hg
          simp only [List.mem_append, List.mem_singleton] at hg
          rcases hg with hg | hg
          · exact hs g hg
          · subst hg
            exact wrote_payload_ne t c _ g hb

/-- C14 (empty compressed payload aborts the encode pass): on every target,
when the encode loop stands before a non-empty block for which the compressor
reports success with an output of 0 bytes, it writes the header word 0 and no
payload byte, and the process ends with exit status 1 (the payload `fwrite`
of size 0 returns 0); and every frame written by an encode pass that ends
normally has a payload of at least 1 byte. -/
theorem empty_payload_aborts (t : Target) (c : Codec) (s : EncState) (fuel : Nat)
    (he : s.fs.eof = false) (hne : s.fs.rest ≠ [])
    (hc : c.compress (s.fs.rest.take IN_LEN) = some []) :
    (∃ s1, encodeLoop t c (fuel + 1) s = some (.exit 1, s1) ∧
      s1.fp = s.fp ++ [⟨0, []⟩] ∧ frameBytes t ⟨0, []⟩ = uintBytes t 0) ∧
    ∀ (S : List Byte) (buf : Nat → Byte) (e : EncState),
      encodePass t c S buf = some (.done, e) → ∀ f ∈ e.fp, 1 ≤ f.payload.length := by
  constructor
  · have hIN : IN_LEN ≠ 0 := by decide
    have hb0 : (fread s.fs IN_LEN).1.length ≠ 0 := by
      rw [fread_fst]
      intro h
      rcases List.take_eq_nil_iff.mp (List.length_eq_zero.mp h) with h | h
      · exact hIN h
      · exact hne h
    have hpos : 0 < (List.take IN_LEN s.fs.rest).length := by
      rw [← fread_fst]; omega
    have hblk : encodeBlock t c (fread s.fs IN_LEN).1 = .shortWrite ⟨0, []⟩ := by
      rw [fread_fst]
      unfold encodeBlock
      rw [hc]
      simp only [List.length_nil, hpos, ↓reduceIte]
      rfl
    refine ⟨⟨(fread s.fs IN_LEN).2, store s.inBuf (fread s.fs IN_LEN).1, s.fp ++ [⟨0, []⟩],
      s.cnt⟩, ?_, rfl, by simp [frameBytes]⟩
    rw [encodeLoop]
    simp only [encodeIter, he, hb0, hblk, Bool.false_eq_true, ↓reduceIte]
  · intro S buf e h f hf
    have := encodeLoop_done_payload t c _ _ e h (by simp [encodeStart]) f hf
    exact List.length_pos.mpr this

theorem empty_payload_aborts_witness :
    (encodeStart [9, 9] zeroBuf).fs.eof = false ∧ (encodeStart [9, 9] zeroBuf).fs.rest ≠ [] ∧
    emptyCodec.compress ((encodeStart [9, 9] zeroBuf).fs.rest.take IN_LEN) = some [] ∧
    (∃ s1, encodeLoop target32 emptyCodec (3 + 1) (encodeStart [9, 9] zeroBuf)
        = some (.exit 1, s1) ∧
      s1.fp = (encodeStart [9, 9] zeroBuf).fp ++ [⟨0, []⟩] ∧
      frameBytes target32 ⟨0, []⟩ = uintBytes target32 0) ∧
    ∀ (S : List Byte) (buf : Nat → Byte) (e : EncState),
      encodePass target32 emptyCodec S buf = some (.done, e) →
        ∀ f ∈ e.fp, 1 ≤ f.payload.length :=
  ⟨rfl, by decide, rfl,
    empty_payload_aborts target32 emptyCodec (encodeStart [9, 9] zeroBuf) 3 rfl (by decide) rfl⟩

/-! ## A payload read of zero bytes -/

/-- A header whose length field is 0: the payload read asks for 0 bytes and
the loop is left by `break`. -/
theorem decodeIter_zero_length (t : Target) (c : Codec) (s : DecState) (w : Nat)
    (tail : List Byte) (hsz : t.sizeofUint ≠ 0) (hfit : w < 2 ^ uintBits t)
    (hs : s.fs.rest = uintBytes t w ++ tail) (hz : (decodeHeader t w).2 = 0) :
    ∃ s1, decodeIter t c s = .stop .broke s1 ∧ s1.fp = s.fp := by
  obtain ⟨h1, _, h3⟩ := decodeIter_reads t s w [] tail (by simpa using hs)
  rw [leValue_uintBytes_of_lt t _ hfit] at h3
  have e1 : (fread s.fs t.sizeofUint).1.length ≠ 0 := by
    rw [h1, uintBytes_length]; exact hsz
  have h4 : (fread (fread s.fs t.sizeofUint).2 0).1 = [] := by simp [fread]
  simp only [decodeIter, e1, ↓reduceIte, h3, hz, h4, List.length_nil, Nat.not_lt_zero]
  exact ⟨_, rfl, rfl⟩

/-- C15 (a payload read of zero bytes ends decoding): on every target and
with every codec, when the decode pass has `j` passes through its loop behind
it, the next header read delivers at least one byte and the payload read
behind it delivers none, either because no byte remains behind the header
bytes or because the length field of the header is 0, then nothing is written
for that frame, the loop is left (through the `break` behind the `error!!!`
message) whatever follows in the stream, and the program returns 0; `de_test`
holds exactly what the `j` earlier frames wrote. -/
theorem zero_payload_read_ends_decoding (t : Target) (c : Codec) (container : List Byte)
    (buf : Nat → Byte) (nl j : Nat) (s : DecState)
    (hsteps : decodeSteps t c j (decodeStart container buf nl) = some s)
    (hcase : (s.fs.rest ≠ [] ∧ s.fs.rest.length ≤ t.sizeofUint) ∨
      (t.sizeofUint ≠ 0 ∧ ∃ w tail, w < 2 ^ uintBits t ∧ s.fs.rest = uintBytes t w ++ tail ∧
        (decodeHeader t w).2 = 0)) :
    decodePass t c container buf nl = some ⟨.broke, .exit 0, s.fp⟩ := by
  rcases hcase with ⟨hne, hrest⟩ | ⟨hsz, w, tail, hfit, hs, hz⟩
  · obtain ⟨s1, h1, h2⟩ := decodeIter_short t c s hne hrest
    rw [← h2]
    exact decodePass_of_steps t c container buf nl j s s1 .broke hsteps h1
  · obtain ⟨s1, h1, h2⟩ := decodeIter_zero_length t c s w tail hsz hfit hs hz
    rw [← h2]
    exact decodePass_of_steps t c container buf nl j s s1 .broke hsteps h1

theorem zero_payload_read_ends_decoding_witness :
    decodeSteps target32 toyCodec 1
        (decodeStart [1, 0, 0, 0, 7, 0, 0, 0, 0, 1, 0, 0, 0, 7] zeroBuf 0)
      = some ⟨⟨[0, 0, 0, 0, 1, 0, 0, 0, 7], false⟩, store zeroBuf [7], 1, [7, 7, 7, 7], 1⟩ ∧
    ((([0, 0, 0, 0, 1, 0, 0, 0, 7] : List Byte) ≠ [] ∧
        ([0, 0, 0, 0, 1, 0, 0, 0, 7] : List Byte).length ≤ target32.sizeofUint) ∨
      (target32.sizeofUint ≠ 0 ∧ ∃ w tail, w < 2 ^ uintBits target32 ∧
        ([0, 0, 0, 0, 1, 0, 0, 0, 7] : List Byte) = uintBytes target32 w ++ tail ∧
        (decodeHeader target32 w).2 = 0)) ∧
    decodePass target32 toyCodec [1, 0, 0, 0, 7, 0, 0, 0, 0, 1, 0, 0, 0, 7] zeroBuf 0
      = some ⟨.broke, .exit 0, [7, 7, 7, 7]⟩ :=
  ⟨rfl, Or.inr ⟨by decide, 0, [1, 0, 0, 0, 7], by decide, by decide, by decide⟩,
    zero_payload_read_ends_decoding target32 toyCodec
      [1, 0, 0, 0, 7, 0, 0, 0, 0, 1, 0, 0, 0, 7] zeroBuf 0 1
      ⟨⟨[0, 0, 0, 0, 1, 0, 0, 0, 7], false⟩, store zeroBuf [7], 1, [7, 7, 7, 7], 1⟩ rfl
      (Or.inr ⟨by decide, 0, [1, 0, 0, 0, 7], by decide, by decide, by decide⟩)⟩

/-! ## Concatenation at a block boundary -/

theorem blocksOf_append_cons (S1 S2 : List Byte) (h1 : S1 ≠ []) (hge : IN_LEN ≤ S1.length)
    (ih : blocksOf (S1.drop IN_LEN ++ S2) = blocksOf (S1.drop IN_LEN) ++ blocksOf S2) :
    blocksOf (S1 ++ S2) = blocksOf S1 ++ blocksOf S2 := by
  rw [blocksOf_of_ne_nil (S1 ++ S2) (by simp [h1]), List.take_append_of_le_length hge,
    List.drop_append_of_le_length hge, blocksOf_of_ne_nil S1 h1, List.cons_append, ih]

theorem blocksOf_append_mul (S2 : List Byte) (k : Nat) : ∀ S1 : List Byte,
    S1.length = IN_LEN * k → blocksOf (S1 ++ S2) = blocksOf S1 ++ blocksOf S2 := by
  induction k with
  | zero =>
    intro S1 h
    have h1 : S1 = [] := List.length_eq_zero.mp (by simpa using h)
    rw [h1, blocksOf_nil, List.nil_append, List.nil_append]
  | succ k ih =>
    intro S1 h
    have hge : IN_LEN ≤ S1.length := by rw [h, Nat.mul_succ]; omega
    have h1 : S1 ≠ [] := by
      intro h0
      rw [h0] at hge
      exact absurd hge (by decide)
    apply blocksOf_append_cons S1 S2 h1 hge
    apply ih
    rw [List.length_drop, h, Nat.mul_succ]
    omega

theorem blocksOf_append (S1 S2 : List Byte) (h : S1.length % IN_LEN = 0) :
    blocksOf (S1 ++ S2) = blocksOf S1 ++ blocksOf S2 := by
  apply blocksOf_append_mul S2 (S1.length / IN_LEN) S1
  have := Nat.div_add_mod S1.length IN_LEN
  rw [h, Nat.add_zero] at this
  exact this.symm

theorem map_wrote_injective (l1 l2 : List Frame)
    (h : l1.map BlockResult.wrote = l2.map BlockResult.wrote) : l1 = l2 := by
  apply List.map_injective_iff.mpr _ h
  intro a b hab
  cases hab
  rfl

theorem encodeLoop_step_wrote (t : Target) (c : Codec) (s : EncState) (fuel : Nat) (f : Frame)
    (he : s.fs.eof = false) (hr : s.fs.rest ≠ [])
    (hf : encodeBlock t c (s.fs.rest.take IN_LEN) = .wrote f) :
    encodeLoop t c (fuel + 1) s = encodeLoop t c fuel
      ⟨(fread s.fs IN_LEN).2, store s.inBuf (fread s.fs IN_LEN).1, s.fp ++ [f],
        (s.cnt + 1) % 2 ^ 32⟩ := by
  have hIN : IN_LEN ≠ 0 := by decide
  have hne : (fread s.fs IN_LEN).1.length ≠ 0 := by
    rw [fread_fst]
    intro h
    rcases List.take_eq_nil_iff.mp (List.length_eq_zero.mp h) with h | h
    · exact hIN h
    · exact hr h
  rw [← fread_fst] at hf
  rw [encodeLoop]
  simp only [encodeIter, he, hne, hf, Bool.false_eq_true, ↓reduceIte]

theorem fread_eof_rest (f : InFile) (n : Nat) (hn : n ≠ 0) (hf : f.eof = false)
    (h : (fread f n).2.eof = true) : (fread f n).2.rest = [] := by
  rw [fread_snd_eof f n hn, hf, Bool.false_or, decide_eq_true_eq] at h
  rw [fread_snd_rest]
  exact List.drop_eq_nil_of_le (by omega)

/-- An encode loop that ends by its condition has written one frame for each
block of the unread input, in order. -/
theorem encodeLoop_done_blocks (t : Target) (c : Codec) (fuel : Nat) :
    ∀ (s e : EncState), encodeLoop t c fuel s = some (.done, e) →
      (s.fs.eof = true → s.fs.rest = []) →
      e.fp.map BlockResult.wrote =
        s.fp.map BlockResult.wrote ++ (blocksOf s.fs.rest).map (encodeBlock t c) := by
  induction fuel with
  | zero => intro s e h; simp [encodeLoop] at h
  | succ fuel ih =>
    intro s e h hinv
    have hIN : IN_LEN ≠ 0 := by decide
    rw [encodeLoop] at h
    unfold encodeIter at h
    by_cases he : s.fs.eof = true
    · simp only [he, ↓reduceIte, Option.some.injEq, Prod.mk.injEq, true_and] at h
      subst h
      rw [hinv he, blocksOf_nil, List.map_nil, List.append_nil]
    · have he0 : s.fs.eof = false := by simpa using he
      simp only [he, Bool.false_eq_true, ↓reduceIte] at h
      by_cases h0 : (fread s.fs IN_LEN).1.length = 0
      · simp only [h0, ↓reduceIte] at h
        have hr : s.fs.rest = [] := by
          rw [fread_fst] at h0
          rcases List.take_eq_nil_iff.mp (List.length_eq_zero.mp h0) with h1 | h1
          · exact absurd h1 hIN
          · exact h1
        have h2 := ih _ e h (fread_eof_rest s.fs IN_LEN hIN he0)
        have h3 : (fread s.fs IN_LEN).2.rest = [] := by rw [fread_snd_rest, hr]; rfl
        rw [hr, blocksOf_nil, List.map_nil, List.append_nil]
        rw [h2]
        show List.map BlockResult.wrote s.fp ++
          List.map (encodeBlock t c) (blocksOf (fread s.fs IN_LEN).2.rest) = _
        rw [h3, blocksOf_nil, List.map_nil, List.append_nil]
      · simp only [h0, ↓reduceIte] at h
        have hr : s.fs.rest ≠ [] := by
          intro h1
          apply h0
          rw [fread_fst, h1]
          rfl
        cases hb : encodeBlock t c (fread s.fs IN_LEN).1 with
        | compressFailed => rw [hb] at h; simp at h
        | shortWrite f => rw [hb] at h; simp at h
        | wrote f =>
          rw [hb] at h
          have h2 := ih _ e h (fread_eof_rest s.fs IN_LEN hIN he0)
          rw [h2, blocksOf_of_ne_nil _ hr, ← fread_fst, ← fread_snd_rest s.fs IN_LEN,
            List.map_cons, hb]
          show List.map BlockResult.wrote (s.fp ++ [f]) ++
            List.map (encodeBlock t c) (blocksOf (fread s.fs IN_LEN).2.rest) = _
          rw [List.map_append, List.map_cons, List.map_nil, List.append_assoc,
            List.singleton_append]

/-- What an encode loop does from a state on depends only on the unread input:
the way it ends and the frames it adds are the same from every state with that
input, whatever the fuel above the length of the input. -/
theorem encodeLoop_frames (t : Target) (c : Codec) (n : Nat) :
    ∀ rest : List Byte, rest.length = n → ∃ (o : Outcome) (l : List Frame),
      ∀ (s : EncState) (fuel : Nat), s.fs.rest = rest → s.fs.eof = false →
        rest.length + 2 ≤ fuel →
        ∃ e, encodeLoop t c fuel s = some (o, e) ∧ e.fp = s.fp ++ l := by
  induction n using Nat.strong_induction_on with
  | _ n ih =>
    intro rest hn
    have hIN : IN_LEN ≠ 0 := by decide
    by_cases hr : rest = []
    · refine ⟨.done, [], ?_⟩
      intro s fuel hs he hfuel
      obtain ⟨fuel, rfl⟩ : ∃ k, fuel = k + 1 + 1 := ⟨fuel - 2, by omega⟩
      have h1 : (fread s.fs IN_LEN).1.length = 0 := by rw [fread_fst, hs, hr]; rfl
      have h2 : (fread s.fs IN_LEN).2.eof = true := by
        rw [fread_snd_eof _ _ hIN, hs, hr]; simp [IN_LEN]
      refine ⟨⟨(fread s.fs IN_LEN).2, store s.inBuf (fread s.fs IN_LEN).1, s.fp, s.cnt⟩,
        ?_, (List.append_nil _).symm⟩
      rw [encodeLoop]
      simp only [encodeIter, he, h1, Bool.false_eq_true, ↓reduceIte]
      exact encodeLoop_eof t c fuel _ h2
    · have hne : ∀ s : EncState, s.fs.rest = rest → (fread s.fs IN_LEN).1.length ≠ 0 := by
        intro s hs h
        rw [fread_fst, hs] at h
        rcases List.take_eq_nil_iff.mp (List.length_eq_zero.mp h) with h | h
        · exact hIN h
        · exact hr h
      cases hf : encodeBlock t c (rest.take IN_LEN) with
      | compressFailed =>
        refine ⟨.exit 2, [], ?_⟩
        intro s fuel hs he hfuel
        obtain ⟨fuel, rfl⟩ : ∃ k, fuel = k + 1 := ⟨fuel - 1, by omega⟩
        have hf1 : encodeBlock t c (fread s.fs IN_LEN).1 = .compressFailed := by
          rw [fread_fst, hs]; exact hf
        refine ⟨⟨(fread s.fs IN_LEN).2, store s.inBuf (fread s.fs IN_LEN).1, s.fp, s.cnt⟩,
          ?_, (List.append_nil _).symm⟩
        rw [encodeLoop]
        simp only [encodeIter, he, hne s hs, hf1, Bool.false_eq_true, ↓reduceIte]
      | shortWrite f =>
        refine ⟨.exit 1, [f], ?_⟩
        intro s fuel hs he hfuel
        obtain ⟨fuel, rfl⟩ : ∃ k, fuel = k + 1 := ⟨fuel - 1, by omega⟩
        have hf1 : encodeBlock t c (fread s.fs IN_LEN).1 = .shortWrite f := by
          rw [fread_fst, hs]; exact hf
        refine ⟨⟨(fread s.fs IN_LEN).2, store s.inBuf (fread s.fs IN_LEN).1, s.fp ++ [f],
          s.cnt⟩, ?_, rfl⟩
        rw [encodeLoop]
        simp only [encodeIter, he, hne s hs, hf1, Bool.false_eq_true, ↓reduceIte]
      | wrote f =>
        by_cases hshort : rest.length < IN_LEN
        · refine ⟨.done, [f], ?_⟩
          intro s fuel hs he hfuel
          obtain ⟨fuel, rfl⟩ : ∃ k, fuel = k + 1 + 1 := ⟨fuel - 2, by omega⟩
          have h2 : (fread s.fs IN_LEN).2.eof = true := by
            rw [fread_snd_eof _ _ hIN, hs]; simp [hshort]
          rw [encodeLoop_step_wrote t c s (fuel + 1) f he (by rw [hs]; exact hr)
            (by rw [hs]; exact hf)]
          exact ⟨_, encodeLoop_eof t c fuel _ h2, rfl⟩
        · have hpos : 0 < rest.length := List.length_pos.mpr hr
          obtain ⟨o, l, hl⟩ := ih (n - IN_LEN) (by unfold IN_LEN; omega) (rest.drop IN_LEN)
            (by rw [List.length_drop, hn])
          refine ⟨o, f :: l, ?_⟩
          intro s fuel hs he hfuel
          obtain ⟨fuel, rfl⟩ : ∃ k, fuel = k + 1 := ⟨fuel - 1, by omega⟩
          have h2 : (fread s.fs IN_LEN).2.eof = false := by
            rw [fread_snd_eof _ _ hIN, hs]; simp [he, hshort]
          rw [encodeLoop_step_wrote t c s fuel f he (by rw [hs]; exact hr)
            (by rw [hs]; exact hf)]
          obtain ⟨e, h3, h4⟩ := hl
            ⟨(fread s.fs IN_LEN).2, store s.inBuf (fread s.fs IN_LEN).1, s.fp ++ [f],
              (s.cnt + 1) % 2 ^ 32⟩ fuel (by rw [← hs]; exact fread_snd_rest s.fs IN_LEN) h2
            (by rw [List.length_drop]; omega)
          refine ⟨e, h3, ?_⟩
          rw [h4]
          show s.fp ++ [f] ++ l = s.fp ++ f :: l
          rw [List.append_assoc, List.singleton_append]

/-- Before an input that starts with `k` full blocks which all get both their
writes, `k` passes of the encode loop write the frames of these blocks and
leave the loop before the rest of the input, the indicator still down. -/
theorem encodeLoop_prefix (t : Target) (c : Codec) (S2 : List Byte) (k : Nat) :
    ∀ (S1 : List Byte) (s : EncState) (fuel : Nat), S1.length = IN_LEN * k →
      s.fs.rest = S1 ++ S2 → s.fs.eof = false →
      (∀ b ∈ blocksOf S1, ∃ f, encodeBlock t c b = .wrote f) →
      ∃ s1 : EncState, encodeLoop t c (fuel + k) s = encodeLoop t c fuel s1 ∧
        s1.fs.rest = S2 ∧ s1.fs.eof = false ∧
        s1.fp.map BlockResult.wrote =
          s.fp.map BlockResult.wrote ++ (blocksOf S1).map (encodeBlock t c) := by
  induction k with
  | zero =>
    intro S1 s fuel h hs he _
    have h1 : S1 = [] := List.length_eq_zero.mp (by simpa using h)
    refine ⟨s, rfl, by rw [hs, h1, List.nil_append], he, ?_⟩
    rw [h1, blocksOf_nil, List.map_nil, List.append_nil]
  | succ k ih =>
    intro S1 s fuel h hs he hall
    have hIN : IN_LEN ≠ 0 := by decide
    have hge : IN_LEN ≤ S1.length := by rw [h, Nat.mul_succ]; omega
    have h1 : S1 ≠ [] := by
      intro h0
      rw [h0] at hge
      exact absurd hge (by decide)
    have hbs : blocksOf S1 = S1.take IN_LEN :: blocksOf (S1.drop IN_LEN) :=
      blocksOf_of_ne_nil S1 h1
    obtain ⟨f, hf⟩ := hall (S1.take IN_LEN) (by rw [hbs]; exact List.mem_cons_self _ _)
    have htake : s.fs.rest.take IN_LEN = S1.take IN_LEN := by
      rw [hs, List.take_append_of_le_length hge]
    have hdrop : (fread s.fs IN_LEN).2.rest = S1.drop IN_LEN ++ S2 := by
      rw [fread_snd_rest, hs, List.drop_append_of_le_length hge]
    have hlen2 : IN_LEN ≤ s.fs.rest.length := by
      rw [hs, List.length_append]; omega
    have h2 : (fread s.fs IN_LEN).2.eof = false := by
      rw [fread_snd_eof _ _ hIN]
      simp [he, hlen2]
    have hstep := encodeLoop_step_wrote t c s (fuel + k) f he
      (by rw [hs]; simp [h1]) (by rw [htake]; exact hf)
    obtain ⟨s1, h3, h4, h5, h6⟩ := ih (S1.drop IN_LEN)
      ⟨(fread s.fs IN_LEN).2, store s.inBuf (fread s.fs IN_LEN).1, s.fp ++ [f],
        (s.cnt + 1) % 2 ^ 32⟩ fuel
      (by rw [List.length_drop, h, Nat.mul_succ]; omega) hdrop h2
      (by
        intro b hb
        apply hall b
        rw [hbs]
        exact List.mem_cons_of_mem _ hb)
    refine ⟨s1, ?_, h4, h5, ?_⟩
    · rw [← h3]
      exact hstep
    · rw [h6, hbs, List.map_cons, hf]
      show List.map BlockResult.wrote (s.fp ++ [f]) ++ _ = _
      rw [List.map_append, List.map_cons, List.map_nil, List.append_assoc,
        List.singleton_append]

/-- C16 (encoding distributes over concatenation at a block boundary): on
every target and with every codec (a function of the block it is given), for
`S1` of a length that is a multiple of 65536 whose encode pass ends normally
and any `S2`, the encode pass on `S1 ++ S2` ends the way the encode pass on
`S2` ends, the frames it has written are those written for `S1` followed by
those written for `S2`, and so are the container bytes. -/
theorem encoding_distributes (t : Target) (c : Codec) (S1 S2 : List Byte)
    (buf buf1 buf2 : Nat → Byte) (e1 : EncState)
    (hlen : S1.length % 65536 = 0)
    (h1 : encodePass t c S1 buf1 = some (.done, e1)) :
    ∃ o e e2, encodePass t c (S1 ++ S2) buf = some (o, e) ∧
      encodePass t c S2 buf2 = some (o, e2) ∧
      e.fp = e1.fp ++ e2.fp ∧
      containerBytes t e.fp = containerBytes t e1.fp ++ containerBytes t e2.fp := by
  have hb1 := encodeLoop_done_blocks t c _ _ e1 h1 (fun h => Bool.noConfusion h)
  have hb2 : e1.fp.map BlockResult.wrote = (blocksOf S1).map (encodeBlock t c) := by
    rw [hb1]
    exact List.nil_append _
  have hall : ∀ b ∈ blocksOf S1, ∃ f, encodeBlock t c b = .wrote f := by
    intro b hb
    have hm : encodeBlock t c b ∈ e1.fp.map BlockResult.wrote := by
      rw [hb2]
      exact List.mem_map_of_mem _ hb
    obtain ⟨f, _, hf⟩ := List.mem_map.mp hm
    exact ⟨f, hf.symm⟩
  have hk : S1.length = IN_LEN * (S1.length / IN_LEN) := by
    have h0 : S1.length % IN_LEN = 0 := hlen
    have := Nat.div_add_mod S1.length IN_LEN
    rw [h0, Nat.add_zero] at this
    exact this.symm
  have hkle : S1.length / IN_LEN ≤ S1.length := Nat.div_le_self _ _
  obtain ⟨o, l, hl⟩ := encodeLoop_frames t c S2.length S2 rfl
  obtain ⟨e2, h21, h22⟩ := hl (encodeStart S2 buf2) (S2.length + 2) rfl rfl (le_refl _)
  obtain ⟨s1, h3, h4, h5, h6⟩ := encodeLoop_prefix t c S2 (S1.length / IN_LEN) S1
    (encodeStart (S1 ++ S2) buf) ((S1 ++ S2).length + 2 - S1.length / IN_LEN) hk rfl rfl hall
  obtain ⟨e, h7, h8⟩ := hl s1 ((S1 ++ S2).length + 2 - S1.length / IN_LEN) h4 h5
    (by rw [List.length_append]; omega)
  have hfuel : (S1 ++ S2).length + 2 - S1.length / IN_LEN + S1.length / IN_LEN
      = (S1 ++ S2).length + 2 := by
    rw [List.length_append]; omega
  rw [hfuel] at h3
  have hs1 : s1.fp = e1.fp := by
    apply map_wrote_injective
    rw [h6, hb2]
    exact List.nil_append _
  have hfp : e.fp = e1.fp ++ e2.fp := by
    rw [h8, hs1, h22]
    rfl
  refine ⟨o, e, e2, ?_, h21, hfp, ?_⟩
  · unfold encodePass
    rw [h3]
    exact h7
  · rw [hfp]
    simp [containerBytes]

theorem encoding_distributes_witness :
    (List.replicate 65536 (7 : Byte)).length % 65536 = 0 ∧
    ∃ e1, encodePass target32 toyCodec (List.replicate 65536 (7 : Byte)) zeroBuf
        = some (.done, e1) ∧
      ∃ o e e2,
        encodePass target32 toyCodec (List.replicate 65536 (7 : Byte) ++ [7, 7, 7, 7]) zeroBuf
          = some (o, e) ∧
        encodePass target32 toyCodec [7, 7, 7, 7] zeroBuf = some (o, e2) ∧
        e.fp = e1.fp ++ e2.fp ∧
        containerBytes target32 e.fp
          = containerBytes target32 e1.fp ++ containerBytes target32 e2.fp :=
  ⟨by rw [List.length_replicate],
    (encodePass_blocks target32 toyCodec
      (fun b hb hl => (toyCodec_ok b hb hl).elim fun out h =>
        encodeBlock_wrote target32 toyCodec b out hb h.1 h.2.1)
      (List.replicate 65536 (7 : Byte)) zeroBuf).elim fun e1 h =>
      ⟨e1, h.1, encoding_distributes target32 toyCodec (List.replicate 65536 (7 : Byte))
        [7, 7, 7, 7] zeroBuf zeroBuf zeroBuf e1 (by rw [List.length_replicate]) h.1⟩⟩

/-! ## Termination of the decode loop -/

theorem fread_split (f : InFile) (n : Nat) :
    f.rest = (fread f n).1 ++ (fread f n).2.rest := by
  rw [fread_fst, fread_snd_rest, List.take_append_drop]

/-- A pass through the body of the decode loop that does not leave the loop
has read a non-empty run of header bytes and a non-empty run of payload bytes
from the front of the stream. -/
theorem decodeIter_next_consumes (t : Target) (c : Codec) (s s1 : DecState)
    (h : decodeIter t c s = .next s1) :
    ∃ hb pb : List Byte, hb ≠ [] ∧ pb ≠ [] ∧ s.fs.rest = hb ++ pb ++ s1.fs.rest := by
  have hA := fread_split s.fs t.sizeofUint
  unfold decodeIter at h
  simp only at h
  split at h
  · cases h
  · next hh =>
    have hB := fread_split (fread s.fs t.sizeofUint).2
      (decodeHeader t (leValue ((fread s.fs t.sizeofUint).1 ++
        (uintBytes t s.new_len).drop (fread s.fs t.sizeofUint).1.length))).2
    have hne1 : (fread s.fs t.sizeofUint).1 ≠ [] := by
      intro h0; apply hh; rw [h0]; rfl
    split at h
    · cases h
    · split at h
      · cases h
      · next hp =>
        have hne2 : (fread (fread s.fs t.sizeofUint).2
            (decodeHeader t (leValue ((fread s.fs t.sizeofUint).1 ++
              (uintBytes t s.new_len).drop (fread s.fs t.sizeofUint).1.length))).2).1 ≠ [] := by
          intro h0; apply hp; rw [h0]; rfl
        split at h
        · split at h
          · split at h
            · cases h
            · cases h
              refine ⟨_, _, hne1, hne2, ?_⟩
              rw [List.append_assoc, ← hB, ← hA]
          · cases h
        · split at h
          · cases h
          · split at h
            · cases h
            · cases h
              refine ⟨_, _, hne1, hne2, ?_⟩
              rw [List.append_assoc, ← hB, ← hA]

/-- With one unit of fuel more than bytes in the stream, the decode loop is
left before the fuel runs out. -/
theorem decodeLoop_total (t : Target) (c : Codec) (fuel : Nat) :
    ∀ s : DecState, s.fs.rest.length + 1 ≤ fuel → ∃ r, decodeLoop t c fuel s = some r := by
  induction fuel with
  | zero => intro s h; omega
  | succ fuel ih =>
    intro s h
    rw [decodeLoop]
    cases hi : decodeIter t c s with
    | stop o s1 => exact ⟨_, rfl⟩
    | next s1 =>
      have h1 := decodeIter_next_length t c s s1 hi
      exact ih s1 (by omega)

/-- C17 (decode termination): on every target, with every codec and for every
container, the decode pass ends (the loop is left within one evaluation of its
condition more than the container has bytes), and every pass through the loop
body that does not leave the loop has taken at least one header byte and at
least one payload byte from the front of the stream. -/
theorem decode_terminates (t : Target) (c : Codec) (container : List Byte)
    (buf : Nat → Byte) (nl : Nat) :
    (∃ r, decodePass t c container buf nl = some r) ∧
    ∀ s s1 : DecState, decodeIter t c s = .next s1 →
      ∃ hb pb : List Byte, hb ≠ [] ∧ pb ≠ [] ∧ s.fs.rest = hb ++ pb ++ s1.fs.rest := by
  constructor
  · obtain ⟨r, hr⟩ := decodeLoop_total t c (container.length + 1)
      (decodeStart container buf nl) (le_refl _)
    exact ⟨_, by rw [decodePass, hr]; rfl⟩
  · exact decodeIter_next_consumes t c

end MiniLZO
